import Mathlib

/-
Verification of the PreFab raster-geometry pipeline.

The development shallowly embeds the two source modules:
  * `prefab/geometry.py` : stateless numpy transforms over 2D rasters
  * `prefab/device.py`   : the `Device` aggregate (buffer padding, cropping,
    binary codec, polygon extraction) built on top of `geometry`.

Rasters are modelled as `List (List NpF)` in row-major order, where `NpF`
models an IEEE-style floating value: a finite rational, NaN, or a signed
infinity.  Exact rational arithmetic stands in for float arithmetic; the
NaN/infinity propagation rules of the operations actually used by the
source (subtraction, division, multiplication, addition, ordering) are
modelled explicitly, which is what the degenerate-input claims are about.

External library primitives that the source merely invokes (cv2 filters,
np.tanh, np.random draws, gdstk booleans, cv2.findContours output) are
taken as explicit function/data parameters of the embedded definitions;
everything the repository itself computes is embedded concretely.
-/

/-- Model of a numpy floating-point scalar: a finite rational, NaN, or a
signed infinity. -/
inductive NpF where
  | fin (q : ℚ)
  | nan
  | inf
  | ninf
deriving DecidableEq, Repr

namespace NpF

/-- IEEE `<` comparison: any comparison with NaN is false. -/
def lt : NpF → NpF → Bool
  | fin a, fin b => decide (a < b)
  | fin _, inf => true
  | ninf, fin _ => true
  | ninf, inf => true
  | _, _ => false

/-- IEEE `>=` comparison: any comparison with NaN is false. -/
def ge : NpF → NpF → Bool
  | fin a, fin b => decide (b ≤ a)
  | inf, fin _ => true
  | inf, inf => true
  | inf, ninf => true
  | fin _, ninf => true
  | ninf, ninf => true
  | _, _ => false

/-- IEEE subtraction on the model (rounding ignored; NaN/infinity rules kept). -/
def sub : NpF → NpF → NpF
  | fin a, fin b => fin (a - b)
  | nan, _ => nan
  | _, nan => nan
  | inf, inf => nan
  | inf, _ => inf
  | ninf, ninf => nan
  | ninf, _ => ninf
  | fin _, inf => ninf
  | fin _, ninf => inf

/-- IEEE addition on the model. -/
def add : NpF → NpF → NpF
  | fin a, fin b => fin (a + b)
  | nan, _ => nan
  | _, nan => nan
  | inf, ninf => nan
  | inf, _ => inf
  | ninf, inf => nan
  | ninf, _ => ninf
  | fin _, inf => inf
  | fin _, ninf => ninf

/-- IEEE multiplication on the model (zero times infinity is NaN). -/
def mul : NpF → NpF → NpF
  | fin a, fin b => fin (a * b)
  | nan, _ => nan
  | _, nan => nan
  | inf, inf => inf
  | inf, ninf => ninf
  | ninf, inf => ninf
  | ninf, ninf => inf
  | inf, fin b => if b = 0 then nan else if 0 < b then inf else ninf
  | ninf, fin b => if b = 0 then nan else if 0 < b then ninf else inf
  | fin a, inf => if a = 0 then nan else if 0 < a then inf else ninf
  | fin a, ninf => if a = 0 then nan else if 0 < a then ninf else inf

/-- IEEE division on the model: `0/0` is NaN, nonzero/0 is a signed
infinity (the sign of a zero denominator is not modelled; rationals have a
single zero). -/
def div : NpF → NpF → NpF
  | fin a, fin b =>
      if b = 0 then (if a = 0 then nan else if 0 < a then inf else ninf)
      else fin (a / b)
  | nan, _ => nan
  | _, nan => nan
  | inf, inf => nan
  | inf, ninf => nan
  | ninf, inf => nan
  | ninf, ninf => nan
  | inf, fin b => if 0 ≤ b then inf else ninf
  | ninf, fin b => if 0 ≤ b then ninf else inf
  | fin _, inf => fin 0
  | fin _, ninf => fin 0

/-- Binary minimum with NaN propagation, as in `np.min` reductions. -/
def min2 : NpF → NpF → NpF
  | fin a, fin b => fin (min a b)
  | nan, _ => nan
  | _, nan => nan
  | ninf, _ => ninf
  | _, ninf => ninf
  | inf, b => b
  | a, inf => a

/-- Binary maximum with NaN propagation, as in `np.max` reductions. -/
def max2 : NpF → NpF → NpF
  | fin a, fin b => fin (max a b)
  | nan, _ => nan
  | _, nan => nan
  | inf, _ => inf
  | _, inf => inf
  | ninf, b => b
  | a, ninf => a

end NpF

/-- A 2D raster in row-major order, the model of a 2D `np.ndarray` of
floats.  (The model is only used on non-empty rectangular rasters; an
empty numpy array cannot carry a nonzero second dimension in this
representation.) -/
abbrev Raster := List (List NpF)

namespace Geometry

/-- Model of `np.min` over all elements of a 2D array (`np.min` raises on
an empty array; the model is stated only on non-empty rasters). -/
def npMin (a : Raster) : NpF :=
  match a.flatten with
  | [] => NpF.nan
  | x :: xs => xs.foldl NpF.min2 x

/-- Model of `np.max` over all elements of a 2D array. -/
def npMax (a : Raster) : NpF :=
  match a.flatten with
  | [] => NpF.nan
  | x :: xs => xs.foldl NpF.max2 x

/-- Embedding of `geometry.normalize`:
`(device_array - np.min(device_array)) / (np.max(device_array) - np.min(device_array))`,
an unguarded elementwise affine rescale. -/
def normalize (device_array : Raster) : Raster :=
  let m := npMin device_array
  let M := npMax device_array
  device_array.map (List.map (fun x => NpF.div (NpF.sub x m) (NpF.sub M m)))

/-- Embedding of `geometry.binarize`.  `np.tanh` is an external primitive
and is passed as the function parameter `tanh`; the rational expression
around it is the source's formula
`(tanh(beta*eta) + tanh(beta*(r-eta))) / (tanh(beta*eta) + tanh(beta*(1-eta)))`. -/
def binarize (tanh : NpF → NpF) (device_array : Raster) (eta beta : NpF) : Raster :=
  device_array.map (List.map (fun x =>
    NpF.div
      (NpF.add (tanh (NpF.mul beta eta)) (tanh (NpF.mul beta (NpF.sub x eta))))
      (NpF.add (tanh (NpF.mul beta eta)) (tanh (NpF.mul beta (NpF.sub (NpF.fin 1) eta))))))

/-- Embedding of `geometry.binarize_hard`: `np.where(device_array < eta, 0.0, 1.0)`. -/
def binarize_hard (device_array : Raster) (eta : NpF) : Raster :=
  device_array.map (List.map (fun x => if NpF.lt x eta then NpF.fin 0 else NpF.fin 1))

/-- Embedding of `geometry.binarize_monte_carlo`.  The two `np.random`
draws and the Gaussian blur are external effects/primitives, passed in as
`randSample` (the raw normal sample for the base threshold), `noise` (the
per-pixel noise field) and `gBlur` (the cv2 Gaussian blur at a given
sigma).  The clip to `[0.4, 0.6]`, the threshold sum and the final
`np.where(device_array < dynamic_threshold, 0.0, 1.0)` are the source's
own computation. -/
def binarize_monte_carlo (randSample : ℚ) (gBlur : ℚ → List (List ℚ) → List (List ℚ))
    (noise : List (List ℚ)) (device_array : Raster)
    (threshold_noise_std threshold_blur_std : ℚ) : Raster :=
  let base_threshold : ℚ := min (max randSample (2/5)) (3/5)
  let spatial_threshold := gBlur threshold_blur_std noise
  let _ := threshold_noise_std
  List.zipWith
    (fun row trow => List.zipWith
      (fun x t => if NpF.lt x (NpF.fin (base_threshold + t)) then NpF.fin 0 else NpF.fin 1)
      row trow)
    device_array spatial_threshold

/-- Embedding of `geometry.ternarize`:
`np.where(device_array < eta1, 0.0, np.where(device_array >= eta2, 1.0, 0.5))`. -/
def ternarize (device_array : Raster) (eta1 eta2 : NpF) : Raster :=
  device_array.map (List.map (fun x =>
    if NpF.lt x eta1 then NpF.fin 0
    else if NpF.ge x eta2 then NpF.fin 1
    else NpF.fin (1/2)))

/-- Row-major list of the indices of the nonzero elements of a raster:
the model of `np.nonzero(device_array)` (as the list of `(row, col)`
pairs). -/
def nonzeroIdx (a : Raster) : List (Nat × Nat) :=
  (List.range a.length).flatMap (fun i =>
    ((List.range ((a.getD i []).length)).filter
      (fun j => decide ((a.getD i []).getD j (NpF.fin 0) ≠ NpF.fin 0))).map
      (fun j => (i, j)))

/-- Minimum of a list of naturals (used to model `.min()` on a non-empty
index vector). -/
def listMin : List Nat → Nat
  | [] => 0
  | x :: xs => xs.foldl Nat.min x

/-- Maximum of a list of naturals (used to model `.max()` on a non-empty
index vector). -/
def listMax : List Nat → Nat
  | [] => 0
  | x :: xs => xs.foldl Nat.max x

/-- Embedding of `geometry.trim`.  `np.nonzero` yields the nonzero index
vectors; `.min()`/`.max()` on an empty vector raises `ValueError`, which
the embedding models as `none`.  The bound arithmetic
`max(min - bt, 0)` / `min(max + bt + 1, shape)` is natural-number
truncated subtraction / `Nat.min`, and the final 2D slice is
drop/take on rows and columns. -/
def trim (device_array : Raster) (buffer_thickness : Nat) : Option Raster :=
  match nonzeroIdx device_array with
  | [] => none
  | _ :: _ =>
    let nz := nonzeroIdx device_array
    let row_min := listMin (nz.map Prod.fst) - buffer_thickness
    let row_max := Nat.min (listMax (nz.map Prod.fst) + buffer_thickness + 1)
      device_array.length
    let col_min := listMin (nz.map Prod.snd) - buffer_thickness
    let col_max := Nat.min (listMax (nz.map Prod.snd) + buffer_thickness + 1)
      (device_array.headD []).length
    some (((device_array.drop row_min).take (row_max - row_min)).map
      (fun r => (r.drop col_min).take (col_max - col_min)))

/-- Embedding of `geometry.blur`: Gaussian blur (external cv2 primitive
`gBlur`, applied at `sigma`) followed by the source's own `normalize`. -/
def blur (gBlur : ℚ → Raster → Raster) (device_array : Raster) (sigma : ℚ) : Raster :=
  normalize (gBlur sigma device_array)

/-- Embedding of `geometry.rotate`: the source computes the center
`(shape[1]/2, shape[0]/2)` and output size `(shape[1], shape[0])` and
hands them with the angle to cv2 (`getRotationMatrix2D` + `warpAffine`),
modelled by the primitive `warp`. -/
def rotate (warp : ℚ × ℚ → ℚ → Nat × Nat → Raster → Raster)
    (device_array : Raster) (angle : ℚ) : Raster :=
  let center : ℚ × ℚ := (((device_array.headD []).length : ℚ) / 2, (device_array.length : ℚ) / 2)
  warp center angle ((device_array.headD []).length, device_array.length) device_array

/-- Embedding of `geometry.erode`: the source builds a `k × k` all-ones
`uint8` kernel and calls `cv2.erode`, modelled by the primitive `cv2Erode`. -/
def erode (cv2Erode : List (List Nat) → Raster → Raster)
    (device_array : Raster) (kernel_size : Nat) : Raster :=
  cv2Erode (List.replicate kernel_size (List.replicate kernel_size 1)) device_array

/-- Embedding of `geometry.dilate`: all-ones kernel handed to `cv2.dilate`. -/
def dilate (cv2Dilate : List (List Nat) → Raster → Raster)
    (device_array : Raster) (kernel_size : Nat) : Raster :=
  cv2Dilate (List.replicate kernel_size (List.replicate kernel_size 1)) device_array

end Geometry

/-
Binary codec (`Device._encode_array` / `Device._decode_array`).

Byte strings are `List Nat` with entries below 256; a float32 element is
carried by its 32-bit pattern (a `Nat` below `2^32`), which is the
bit-for-bit view the codec itself operates on.
-/

namespace Codec

/-- The standard base64 alphabet as ASCII codes
(`A-Z`, `a-z`, `0-9`, `+`, `/`). -/
def b64chars : List Nat :=
  [65, 66, 67, 68, 69, 70, 71, 72, 73, 74, 75, 76, 77, 78, 79, 80, 81, 82,
   83, 84, 85, 86, 87, 88, 89, 90,
   97, 98, 99, 100, 101, 102, 103, 104, 105, 106, 107, 108, 109, 110, 111,
   112, 113, 114, 115, 116, 117, 118, 119, 120, 121, 122,
   48, 49, 50, 51, 52, 53, 54, 55, 56, 57, 43, 47]

/-- ASCII code of a sextet under the base64 alphabet. -/
def encChar (s : Nat) : Nat := b64chars.getD s 0

/-- Inverse of the base64 alphabet: index of an ASCII code, `none` for a
non-alphabet character. -/
def decChar (c : Nat) : Option Nat := b64chars.findIdx? (fun x => x = c)

/-- The ASCII code of the padding character. -/
def padChar : Nat := 61

/-- Model of `base64.b64encode` on a byte string: 3-byte groups become 4
alphabet characters; a trailing 1- or 2-byte group is padded with `=`. -/
def b64encode : List Nat → List Nat
  | [] => []
  | [b0] => [encChar (b0 / 4), encChar (b0 % 4 * 16), padChar, padChar]
  | [b0, b1] => [encChar (b0 / 4), encChar (b0 % 4 * 16 + b1 / 16),
                 encChar (b1 % 16 * 4), padChar]
  | b0 :: b1 :: b2 :: rest =>
      encChar (b0 / 4) :: encChar (b0 % 4 * 16 + b1 / 16) ::
      encChar (b1 % 16 * 4 + b2 / 64) :: encChar (b2 % 64) :: b64encode rest

/-- Model of `base64.b64decode` on a character string: 4-character groups
become 3 bytes; `=` padding in the final group shortens it to 1 or 2
bytes; a malformed string decodes to `none`. -/
def b64decode : List Nat → Option (List Nat)
  | [] => some []
  | c0 :: c1 :: c2 :: c3 :: rest => do
      let s0 ← decChar c0
      let s1 ← decChar c1
      if c2 = padChar then
        if c3 = padChar ∧ rest = [] then some [s0 * 4 + s1 / 16] else none
      else do
        let s2 ← decChar c2
        if c3 = padChar then
          if rest = [] then some [s0 * 4 + s1 / 16, s1 % 16 * 16 + s2 / 4] else none
        else do
          let s3 ← decChar c3
          let tl ← b64decode rest
          some ([s0 * 4 + s1 / 16, s1 % 16 * 16 + s2 / 4, s2 % 4 * 64 + s3] ++ tl)
  | _ => none

/-- Model of `struct.pack(">I", n)`: 4 big-endian bytes. -/
def pack32be (n : Nat) : List Nat :=
  [n / 2 ^ 24 % 256, n / 2 ^ 16 % 256, n / 2 ^ 8 % 256, n % 256]

/-- Model of one `">I"` field of `struct.unpack` on the first 4 bytes. -/
def unpack32be (bs : List Nat) : Nat :=
  bs.getD 0 0 * 2 ^ 24 + bs.getD 1 0 * 2 ^ 16 + bs.getD 2 0 * 2 ^ 8 + bs.getD 3 0

/-- The 4 little-endian bytes of a 32-bit pattern, as laid out by
`.tobytes()` for one float32 element on a little-endian host. -/
def bytes4le (n : Nat) : List Nat :=
  [n % 256, n / 2 ^ 8 % 256, n / 2 ^ 16 % 256, n / 2 ^ 24 % 256]

/-- Reassemble consecutive 4-byte groups into 32-bit patterns: the model
of `np.frombuffer(..., dtype=np.float32)` on the payload. -/
def chunk4 : List Nat → List Nat
  | b0 :: b1 :: b2 :: b3 :: rest =>
      (b0 + b1 * 2 ^ 8 + b2 * 2 ^ 16 + b3 * 2 ^ 24) :: chunk4 rest
  | _ => []

/-- Split a flat element list into `h` rows of `w`: the model of
assigning `array.shape = (h, w)`. -/
def toRows (w : Nat) : Nat → List Nat → List (List Nat)
  | 0, _ => []
  | h + 1, l => l.take w :: toRows w h (l.drop w)

/-- A raster as the codec sees it: rows of 32-bit float patterns. -/
abbrev BitRaster := List (List Nat)

/-- Embedding of `Device._encode_array`:
`struct.pack(">II", len(array), len(array[0])) + array.tobytes()`, then
base64. -/
def encode_array (array : BitRaster) : List Nat :=
  let array_shape := pack32be array.length ++ pack32be (array.headD []).length
  let serialized_array := array_shape ++ array.flatten.flatMap bytes4le
  b64encode serialized_array

/-- Embedding of `Device._decode_array`: base64-decode, reinterpret the
bytes after the 8-byte header as float32, then reshape to the header's
`(h, w)`.  The fallible steps (malformed base64, payload not a multiple
of 4 bytes, element count differing from `h * w`) are modelled as `none`. -/
def decode_array (encoded_array : List Nat) : Option BitRaster := do
  let serialized_array ← b64decode encoded_array
  if 8 ≤ serialized_array.length ∧ (serialized_array.length - 8) % 4 = 0 then
    let h := unpack32be (serialized_array.take 4)
    let w := unpack32be ((serialized_array.drop 4).take 4)
    let elems := chunk4 (serialized_array.drop 8)
    if elems.length = h * w then some (toRows w h elems) else none
  else none

end Codec

/-
The `Device` aggregate: buffer specification, construction-time padding,
buffer-aware cropping, and the fluent transform methods (each a
`model_copy` that replaces `device_array` and keeps `buffer_spec`).
-/

/-- A buffer mode for one side: `constant` (zero fill) or `edge`
(replicate the edge row/column), the two values `BufferSpec.check_mode`
accepts. -/
inductive Mode where
  | constant
  | edge
deriving DecidableEq, Repr

/-- The four sides keyed by the `mode` dictionary. -/
inductive Side where
  | top
  | bottom
  | left
  | right
deriving DecidableEq, Repr

/-- Embedding of `BufferSpec`: a per-side mode map and a thickness
(`conint(gt=0)`; positivity is carried as a hypothesis where needed). -/
structure BufferSpec where
  mode : Side → Mode
  thickness : Nat

/-- Width of a raster, as numpy's `shape[1]` (first-row length; the model
is used on non-empty rectangular rasters). -/
def rasterWidth (a : Raster) : Nat := (a.headD []).length

/-- Model of `np.pad(a, ((t, 0), (0, 0)), mode)`: prepend `t` rows.
`constant` prepends zero rows; `edge` replicates the first row and raises
on an empty axis (modelled as `none`). -/
def npPadTop (t : Nat) (m : Mode) (a : Raster) : Option Raster :=
  match m with
  | .constant => some (List.replicate t (List.replicate (rasterWidth a) (NpF.fin 0)) ++ a)
  | .edge =>
    match a with
    | [] => if t = 0 then some [] else none
    | r :: _ => some (List.replicate t r ++ a)

/-- Model of `np.pad(a, ((0, t), (0, 0)), mode)`: append `t` rows. -/
def npPadBottom (t : Nat) (m : Mode) (a : Raster) : Option Raster :=
  match m with
  | .constant => some (a ++ List.replicate t (List.replicate (rasterWidth a) (NpF.fin 0)))
  | .edge =>
    match a.getLast? with
    | none => if t = 0 then some [] else none
    | some r => some (a ++ List.replicate t r)

/-- Model of `np.pad(a, ((0, 0), (t, 0)), mode)`: prepend `t` entries to
each row. -/
def npPadLeft (t : Nat) (m : Mode) (a : Raster) : Option Raster :=
  match m with
  | .constant => some (a.map (fun r => List.replicate t (NpF.fin 0) ++ r))
  | .edge =>
    a.mapM (fun r =>
      match r with
      | [] => if t = 0 then some [] else none
      | x :: _ => some (List.replicate t x ++ r))

/-- Model of `np.pad(a, ((0, 0), (0, t)), mode)`: append `t` entries to
each row. -/
def npPadRight (t : Nat) (m : Mode) (a : Raster) : Option Raster :=
  match m with
  | .constant => some (a.map (fun r => r ++ List.replicate t (NpF.fin 0)))
  | .edge =>
    a.mapM (fun r =>
      match r.getLast? with
      | none => if t = 0 then some [] else none
      | some x => some (r ++ List.replicate t x))

/-- Embedding of `Device._initial_processing`: pad the four sides in
source order (top, bottom, left, right), each with its own mode and the
shared thickness; the final `astype(np.float32)` is the identity on the
value model. -/
def initial_processing (spec : BufferSpec) (a : Raster) : Option Raster := do
  let a1 ← npPadTop spec.thickness (spec.mode .top) a
  let a2 ← npPadBottom spec.thickness (spec.mode .bottom) a1
  let a3 ← npPadLeft spec.thickness (spec.mode .left) a2
  npPadRight spec.thickness (spec.mode .right) a3

/-- Embedding of the `Device` aggregate: one raster plus one buffer
specification. -/
structure Device where
  device_array : Raster
  buffer_spec : BufferSpec

namespace Device

/-- Embedding of `Device.__init__`: store the spec and run
`_initial_processing` (which can raise for `edge` padding of an empty
axis, hence `Option`). -/
def construct (device_array : Raster) (buffer_spec : BufferSpec) : Option Device :=
  (initial_processing buffer_spec device_array).map
    (fun padded => { device_array := padded, buffer_spec := buffer_spec })

/-- Embedding of `Device.to_ndarray`: crop `thickness` pixels from each
side whose mode is `edge` (`device_array[crop_top : shape0 - crop_bottom,
crop_left : shape1 - crop_right]`). -/
def to_ndarray (d : Device) : Raster :=
  let t := d.buffer_spec.thickness
  let crop_top := if d.buffer_spec.mode .top = .edge then t else 0
  let crop_bottom := if d.buffer_spec.mode .bottom = .edge then t else 0
  let crop_left := if d.buffer_spec.mode .left = .edge then t else 0
  let crop_right := if d.buffer_spec.mode .right = .edge then t else 0
  let w := rasterWidth d.device_array
  ((d.device_array.drop crop_top).take (d.device_array.length - crop_bottom - crop_top)).map
    (fun r => (r.drop crop_left).take (w - crop_right - crop_left))

/-- Embedding of `Device.normalize` (a `model_copy` with a new array). -/
def normalize (d : Device) : Device :=
  { d with device_array := Geometry.normalize d.device_array }

/-- Embedding of `Device.binarize`. -/
def binarize (tanh : NpF → NpF) (eta beta : NpF) (d : Device) : Device :=
  { d with device_array := Geometry.binarize tanh d.device_array eta beta }

/-- Embedding of `Device.binarize_hard`. -/
def binarize_hard (eta : NpF) (d : Device) : Device :=
  { d with device_array := Geometry.binarize_hard d.device_array eta }

/-- Embedding of `Device.binarize_monte_carlo` (random draws and the blur
primitive passed through as parameters). -/
def binarize_monte_carlo (randSample : ℚ) (gBlur : ℚ → List (List ℚ) → List (List ℚ))
    (noise : List (List ℚ)) (threshold_noise_std threshold_blur_std : ℚ)
    (d : Device) : Device :=
  { d with device_array := (Geometry.binarize_monte_carlo randSample gBlur noise
      d.device_array threshold_noise_std threshold_blur_std) }

/-- Embedding of `Device.ternarize`. -/
def ternarize (eta1 eta2 : NpF) (d : Device) : Device :=
  { d with device_array := Geometry.ternarize d.device_array eta1 eta2 }

/-- Embedding of `Device.trim`: `geometry.trim` with the spec's thickness
as the buffer; propagates the all-zero `ValueError` as `none`. -/
def trim (d : Device) : Option Device :=
  (Geometry.trim d.device_array d.buffer_spec.thickness).map
    (fun arr => { d with device_array := arr })

/-- Embedding of `Device.blur`. -/
def blur (gBlur : ℚ → Raster → Raster) (sigma : ℚ) (d : Device) : Device :=
  { d with device_array := Geometry.blur gBlur d.device_array sigma }

/-- Embedding of `Device.rotate`. -/
def rotate (warp : ℚ × ℚ → ℚ → Nat × Nat → Raster → Raster) (angle : ℚ)
    (d : Device) : Device :=
  { d with device_array := Geometry.rotate warp d.device_array angle }

/-- Embedding of `Device.erode`. -/
def erode (cv2Erode : List (List Nat) → Raster → Raster) (kernel_size : Nat)
    (d : Device) : Device :=
  { d with device_array := Geometry.erode cv2Erode d.device_array kernel_size }

/-- Embedding of `Device.dilate`. -/
def dilate (cv2Dilate : List (List Nat) → Raster → Raster) (kernel_size : Nat)
    (d : Device) : Device :=
  { d with device_array := Geometry.dilate cv2Dilate d.device_array kernel_size }

end Device

/-
Polygon extraction (`Device._device_to_gdstk`).

`cv2.findContours` output is external data: a list of contours (point
lists) together with a hierarchy row per contour
`(next, previous, first_child, parent)` of which the source only reads
the parent field.  `gdstk.boolean` is an external primitive, passed in as
a function of (operand1, operand2, operation-name).
-/

namespace Gds

/-- A polygon/contour as a list of points (pixel coordinates are
integers in cv2's output, but after the source's division by 1000 they
are rationals). -/
abbrev Poly := List (ℚ × ℚ)

/-- One row of `hierarchy[0]`: `(next, previous, first_child, parent)`. -/
abbrev HierRow := Int × Int × Int × Int

/-- Nesting depth of contour `idx`: the length of its parent chain, as
computed by the source's `while hierarchy[0][current_idx][3] != -1` loop.
The loop terminates on cv2's forest-shaped hierarchies; the embedding
bounds the walk by a fuel argument (instantiated to more than the number
of contours, which strictly exceeds any forest depth). -/
def contourLevel (hier : List HierRow) : Nat → Int → Nat
  | 0, _ => 0
  | fuel + 1, idx =>
    let parent := (hier.getD idx.toNat (0, 0, 0, -1)).2.2.2
    if parent = -1 then 0 else contourLevel hier fuel parent + 1

/-- The source's coordinate scaling `contour / 1000`. -/
def scalePoly (c : Poly) : Poly := c.map (fun p => (p.1 / 1000, p.2 / 1000))

/-- Append a value to the list stored at a key of an insertion-ordered
association list: the model of
`hierarchy_polygons.setdefault-and-append` on a Python dict. -/
def assocAppend : List (Nat × List Poly) → Nat → Poly → List (Nat × List Poly)
  | [], k, v => [(k, [v])]
  | (k', vs) :: rest, k, v =>
    if k' = k then (k', vs ++ [v]) :: rest else (k', vs) :: assocAppend rest k v

/-- The `hierarchy_polygons` dict built by the source's first loop: for
each contour (in order), compute its level, and if it has more than 2
points, append its scaled point list under its level. -/
def buildLevels (hier : List HierRow) (contours : List Poly) : List (Nat × List Poly) :=
  contours.enum.foldl
    (fun dict ic =>
      let level := contourLevel hier (hier.length + 1) (Int.ofNat ic.1)
      if ic.2.length > 2 then assocAppend dict level (scalePoly ic.2) else dict)
    []

/-- Embedding of the core of `Device._device_to_gdstk` after
`cv2.findContours`: build the per-level polygon dict, then for each level
in ascending order combine that level's polygons with the accumulator via
`gdstk.boolean(polys, processed, "or"/"xor")` — `"or"` for even levels,
`"xor"` for odd ones.  The returned list is the cell's polygon set. -/
def device_to_gdstk (boolOp : List Poly → List Poly → String → List Poly)
    (contours : List Poly) (hier : List HierRow) : List Poly :=
  let hierarchy_polygons := buildLevels hier contours
  let keys := (hierarchy_polygons.map Prod.fst).mergeSort (fun a b => a ≤ b)
  keys.foldl
    (fun processed level =>
      let operation := if level % 2 = 0 then "or" else "xor"
      let polygons_to_process := ((hierarchy_polygons.lookup level).getD [])
      if polygons_to_process.isEmpty then processed
      else boolOp polygons_to_process processed operation)
    []

/-- Specification-side grouping: the scaled polygons of the contours kept
(more than 2 points) whose nesting depth is `d`, in contour order. -/
def groupAtDepth (hier : List HierRow) (contours : List Poly) (d : Nat) : List Poly :=
  (contours.enum.filter
    (fun ic => decide (ic.2.length > 2) &&
      decide (contourLevel hier (hier.length + 1) (Int.ofNat ic.1) = d))).map
    (fun ic => scalePoly ic.2)

/-- Specification-side depth list: the distinct nesting depths of the
kept contours, in increasing order. -/
def depthsPresent (hier : List HierRow) (contours : List Poly) : List Nat :=
  ((contours.enum.filterMap
    (fun ic => if ic.2.length > 2
      then some (contourLevel hier (hier.length + 1) (Int.ofNat ic.1))
      else none)).dedup).mergeSort (fun a b => a ≤ b)

end Gds

/-
Claim theorems.
-/

/-- C3: every transform method (normalize, binarize, binarize_hard,
binarize_monte_carlo, ternarize, trim, blur, rotate, erode, dilate)
returns a new Device carrying the same `BufferSpec` as the receiver.  The
receiver itself is untouched: in the embedding every method is the pure
`model_copy` pattern of the source (a fresh structure with only
`device_array` replaced), so no mutation of the receiver exists.  For
`trim`, which can raise on an all-zero raster, the preservation is stated
on the success case. -/
theorem C3_transforms_preserve_buffer_spec
    (tanh : NpF → NpF) (gBlurQ : ℚ → List (List ℚ) → List (List ℚ))
    (gBlur : ℚ → Raster → Raster) (warp : ℚ × ℚ → ℚ → Nat × Nat → Raster → Raster)
    (cv2Erode cv2Dilate : List (List Nat) → Raster → Raster)
    (randSample : ℚ) (noise : List (List ℚ)) (eta beta eta1 eta2 : NpF)
    (tns tbs sigma angle : ℚ) (k1 k2 : Nat) (d : Device) :
    (d.normalize).buffer_spec = d.buffer_spec ∧
    (Device.binarize tanh eta beta d).buffer_spec = d.buffer_spec ∧
    (Device.binarize_hard eta d).buffer_spec = d.buffer_spec ∧
    (Device.binarize_monte_carlo randSample gBlurQ noise tns tbs d).buffer_spec
      = d.buffer_spec ∧
    (Device.ternarize eta1 eta2 d).buffer_spec = d.buffer_spec ∧
    (∀ d', Device.trim d = some d' → d'.buffer_spec = d.buffer_spec) ∧
    (Device.blur gBlur sigma d).buffer_spec = d.buffer_spec ∧
    (Device.rotate warp angle d).buffer_spec = d.buffer_spec ∧
    (Device.erode cv2Erode k1 d).buffer_spec = d.buffer_spec ∧
    (Device.dilate cv2Dilate k2 d).buffer_spec = d.buffer_spec := by
  refine ⟨rfl, rfl, rfl, rfl, rfl, ?_, rfl, rfl, rfl, rfl⟩
  intro d' h
  unfold Device.trim at h
  rcases htrim : Geometry.trim d.device_array d.buffer_spec.thickness with _ | arr
  · rw [htrim] at h
    simp at h
  · rw [htrim] at h
    simp only [Option.map_some'] at h
    injection h with h2
    rw [← h2]

/-- Closed instantiation of `C3_transforms_preserve_buffer_spec` at a
concrete device and concrete primitives; the `trim` conjunct is exercised
by evaluating `Device.trim` on the device. -/
theorem C3_witness :
    (Device.normalize ⟨[[NpF.fin 1]], ⟨fun _ => Mode.constant, 1⟩⟩).buffer_spec
        = (⟨[[NpF.fin 1]], ⟨fun _ => Mode.constant, 1⟩⟩ : Device).buffer_spec ∧
      ∀ d', Device.trim ⟨[[NpF.fin 1]], ⟨fun _ => Mode.constant, 1⟩⟩ = some d' →
        d'.buffer_spec = (⟨[[NpF.fin 1]], ⟨fun _ => Mode.constant, 1⟩⟩ : Device).buffer_spec := by
  have h := C3_transforms_preserve_buffer_spec (fun x => x) (fun _ n => n) (fun _ r => r)
    (fun _ _ _ r => r) (fun _ r => r) (fun _ r => r) 0 [] (NpF.fin (1/2)) NpF.inf
    (NpF.fin (1/3)) (NpF.fin (2/3)) 2 9 1 0 3 3 ⟨[[NpF.fin 1]], ⟨fun _ => Mode.constant, 1⟩⟩
  exact ⟨h.1, h.2.2.2.2.2.1⟩

/-- C4 counterexample: `binarize_hard` is not idempotent for every
threshold.  With `eta = -1` and the raster `[[-5]]`, the first pass
produces `[[0]]` and the second pass maps that `0` to `1` because
`0 < -1` is false. -/
theorem C4_counterexample :
    Geometry.binarize_hard
        (Geometry.binarize_hard [[NpF.fin (-5)]] (NpF.fin (-1))) (NpF.fin (-1))
      ≠ Geometry.binarize_hard [[NpF.fin (-5)]] (NpF.fin (-1)) := by
  decide

/-- C4 (amended): `binarize_hard` is idempotent for every raster whenever
the threshold is a finite value with `0 < eta ≤ 1` (in particular on the
expected range `eta ∈ (0,1)` and the default `0.5`): a produced `0` stays
below the threshold and a produced `1` does not. -/
theorem C4_binarize_hard_idempotent (a : Raster) (q : ℚ) (h0 : 0 < q) (h1 : q ≤ 1) :
    Geometry.binarize_hard (Geometry.binarize_hard a (NpF.fin q)) (NpF.fin q)
      = Geometry.binarize_hard a (NpF.fin q) := by
  unfold Geometry.binarize_hard
  rw [List.map_map]
  apply List.map_congr_left
  intro r _
  simp only [Function.comp_apply, List.map_map]
  apply List.map_congr_left
  intro x _
  simp only [Function.comp_apply]
  by_cases hx : NpF.lt x (NpF.fin q) = true
  · simp only [hx, if_true]
    have : NpF.lt (NpF.fin 0) (NpF.fin q) = true := by
      simp [NpF.lt, h0]
    simp [this]
  · simp only [hx]
    have : NpF.lt (NpF.fin 1) (NpF.fin q) = false := by
      simp [NpF.lt]
      linarith
    simp [hx, this]

/-- Closed instantiation of `C4_binarize_hard_idempotent` at the default
threshold `1/2` on a concrete raster. -/
theorem C4_witness :
    Geometry.binarize_hard
        (Geometry.binarize_hard [[NpF.fin (3/4), NpF.fin (1/4)]] (NpF.fin (1/2)))
        (NpF.fin (1/2))
      = Geometry.binarize_hard [[NpF.fin (3/4), NpF.fin (1/4)]] (NpF.fin (1/2)) :=
  C4_binarize_hard_idempotent [[NpF.fin (3/4), NpF.fin (1/4)]] (1/2)
    (by norm_num) (by norm_num)

/-- C5: with `eta1 < eta2`, `ternarize` maps each element `v` to 0 when
`v < eta1`, to 1 when `v >= eta2` and to 0.5 otherwise, so every output
element lies in `{0, 0.5, 1}`. -/
theorem C5_ternarize_levels (a : Raster) (eta1 eta2 : NpF)
    (h : NpF.lt eta1 eta2 = true) :
    Geometry.ternarize a eta1 eta2 = a.map (List.map (fun v =>
      if NpF.lt v eta1 then NpF.fin 0
      else if NpF.ge v eta2 then NpF.fin 1 else NpF.fin (1/2))) ∧
    ∀ r ∈ Geometry.ternarize a eta1 eta2, ∀ v ∈ r,
      v = NpF.fin 0 ∨ v = NpF.fin (1/2) ∨ v = NpF.fin 1 := by
  refine ⟨rfl, ?_⟩
  intro r hr v hv
  unfold Geometry.ternarize at hr
  rw [List.mem_map] at hr
  obtain ⟨r0, -, rfl⟩ := hr
  rw [List.mem_map] at hv
  obtain ⟨x, -, rfl⟩ := hv
  by_cases h1 : NpF.lt x eta1 = true
  · left; simp [h1]
  · by_cases h2 : NpF.ge x eta2 = true
    · right; right; simp [h1, h2]
    · right; left; simp [h1, h2]

/-- Closed instantiation of `C5_ternarize_levels` at the default
thresholds `1/3 < 2/3` on a concrete raster. -/
theorem C5_witness :
    Geometry.ternarize [[NpF.fin (1/4), NpF.fin (1/2), NpF.fin (3/4)]]
        (NpF.fin (1/3)) (NpF.fin (2/3))
      = [[NpF.fin 0, NpF.fin (1/2), NpF.fin 1]] ∧
    (NpF.fin (1/2) = NpF.fin 0 ∨ NpF.fin (1/2) = NpF.fin (1/2) ∨
      NpF.fin (1/2) = NpF.fin 1) := by
  have h := C5_ternarize_levels [[NpF.fin (1/4), NpF.fin (1/2), NpF.fin (3/4)]]
    (NpF.fin (1/3)) (NpF.fin (2/3)) (by simp only [NpF.lt, decide_eq_true_eq]; norm_num)
  have hval : Geometry.ternarize [[NpF.fin (1/4), NpF.fin (1/2), NpF.fin (3/4)]]
      (NpF.fin (1/3)) (NpF.fin (2/3)) = [[NpF.fin 0, NpF.fin (1/2), NpF.fin 1]] := by
    norm_num [Geometry.ternarize, NpF.lt, NpF.ge]
  refine ⟨hval, h.2 [NpF.fin 0, NpF.fin (1/2), NpF.fin 1] ?_ (NpF.fin (1/2)) (by simp)⟩
  rw [hval]
  simp

/-- C7: on an all-zero raster, `trim` has no nonzero element to bound and
raises (`ValueError` from the empty `.min()` reduction), modelled as
`none`. -/
theorem C7_trim_all_zero_raises (a : Raster) (bt : Nat)
    (h : ∀ r ∈ a, ∀ v ∈ r, v = NpF.fin 0) :
    Geometry.trim a bt = none := by
  have hnz : Geometry.nonzeroIdx a = [] := by
    unfold Geometry.nonzeroIdx
    rw [List.flatMap_eq_nil_iff]
    intro i hi
    rw [List.map_eq_nil_iff, List.filter_eq_nil_iff]
    intro j hj
    simp only [decide_eq_true_eq, not_not]
    rw [List.mem_range] at hj
    have hrow : a.getD i [] ∈ a ∨ a.getD i [] = [] := by
      by_cases hlen : i < a.length
      · left
        rw [List.getD_eq_getElem?_getD, List.getElem?_eq_getElem hlen]
        exact List.getElem_mem hlen
      · right
        rw [List.getD_eq_getElem?_getD, List.getElem?_eq_none (by omega)]
        rfl
    rcases hrow with hrow | hrow
    · set r := a.getD i [] with hrdef
      have hel : r.getD j (NpF.fin 0) ∈ r := by
        rw [List.getD_eq_getElem?_getD, List.getElem?_eq_getElem hj]
        exact List.getElem_mem hj
      exact h _ hrow _ hel
    · rw [hrow] at hj
      simp at hj
  unfold Geometry.trim
  rw [hnz]

/-- Closed instantiation of `C7_trim_all_zero_raises` on a concrete
all-zero raster. -/
theorem C7_witness :
    Geometry.trim [[NpF.fin 0, NpF.fin 0], [NpF.fin 0, NpF.fin 0]] 3 = none :=
  C7_trim_all_zero_raises [[NpF.fin 0, NpF.fin 0], [NpF.fin 0, NpF.fin 0]] 3
    (by decide)

/-- Folding `min2` over a constant finite list leaves the constant. -/
theorem foldl_min2_const (c : ℚ) (l : List NpF) (h : ∀ v ∈ l, v = NpF.fin c) :
    l.foldl NpF.min2 (NpF.fin c) = NpF.fin c := by
  induction l with
  | nil => rfl
  | cons x xs ih =>
    rw [List.foldl_cons, h x (by simp)]
    have hm : NpF.min2 (NpF.fin c) (NpF.fin c) = NpF.fin c := by
      simp [NpF.min2]
    rw [hm]
    exact ih (fun v hv => h v (by simp [hv]))

/-- Folding `max2` over a constant finite list leaves the constant. -/
theorem foldl_max2_const (c : ℚ) (l : List NpF) (h : ∀ v ∈ l, v = NpF.fin c) :
    l.foldl NpF.max2 (NpF.fin c) = NpF.fin c := by
  induction l with
  | nil => rfl
  | cons x xs ih =>
    rw [List.foldl_cons, h x (by simp)]
    have hm : NpF.max2 (NpF.fin c) (NpF.fin c) = NpF.fin c := by
      simp [NpF.max2]
    rw [hm]
    exact ih (fun v hv => h v (by simp [hv]))

/-- On a non-empty constant raster, `np.min` is the constant. -/
theorem npMin_const (a : Raster) (c : ℚ) (hne : a.flatten ≠ [])
    (h : ∀ v ∈ a.flatten, v = NpF.fin c) : Geometry.npMin a = NpF.fin c := by
  unfold Geometry.npMin
  rcases hf : a.flatten with _ | ⟨x, xs⟩
  · exact absurd hf hne
  · rw [hf] at h
    rw [h x (by simp)]
    exact foldl_min2_const c xs (fun v hv => h v (by simp [hv]))

/-- On a non-empty constant raster, `np.max` is the constant. -/
theorem npMax_const (a : Raster) (c : ℚ) (hne : a.flatten ≠ [])
    (h : ∀ v ∈ a.flatten, v = NpF.fin c) : Geometry.npMax a = NpF.fin c := by
  unfold Geometry.npMax
  rcases hf : a.flatten with _ | ⟨x, xs⟩
  · exact absurd hf hne
  · rw [hf] at h
    rw [h x (by simp)]
    exact foldl_max2_const c xs (fun v hv => h v (by simp [hv]))

/-- C8 counterexample: `normalize` does not guard the flat-raster case.
On the constant raster `[[1,1],[1,1]]` the unguarded division `0/0` is
taken elementwise and every output element is NaN — no error is raised
and no non-NaN sentinel is produced, refuting the claim that the
degenerate case is handled explicitly rather than NaN silently
propagating. -/
theorem C8_counterexample :
    Geometry.normalize [[NpF.fin 1, NpF.fin 1], [NpF.fin 1, NpF.fin 1]]
      = [[NpF.nan, NpF.nan], [NpF.nan, NpF.nan]] := by
  norm_num [Geometry.normalize, Geometry.npMin, Geometry.npMax, NpF.min2, NpF.max2,
    NpF.sub, NpF.div]

/-- C8 (amended): on any non-empty constant raster, `normalize` silently
returns the all-NaN raster: the division is unguarded, both numerator and
denominator are zero, and every element becomes `0/0 = NaN` (numpy emits
only a RuntimeWarning).  No defined error and no non-NaN sentinel exist. -/
theorem C8_normalize_flat_nan (a : Raster) (c : ℚ) (hne : a.flatten ≠ [])
    (hconst : ∀ v ∈ a.flatten, v = NpF.fin c) :
    ∀ v ∈ (Geometry.normalize a).flatten, v = NpF.nan := by
  intro v hv
  unfold Geometry.normalize at hv
  rw [← List.map_flatten] at hv
  rw [List.mem_map] at hv
  obtain ⟨x, hx, rfl⟩ := hv
  rw [hconst x hx, npMin_const a c hne hconst, npMax_const a c hne hconst]
  simp [NpF.sub, NpF.div]

/-- Closed instantiation of `C8_normalize_flat_nan` on a concrete
constant raster. -/
theorem C8_witness : Geometry.normalize [[NpF.fin 2]] = [[NpF.nan]] := by
  have h := C8_normalize_flat_nan [[NpF.fin 2]] 2 (by simp) (by simp)
  have he := h (NpF.div (NpF.sub (NpF.fin 2) (Geometry.npMin [[NpF.fin 2]]))
    (NpF.sub (Geometry.npMax [[NpF.fin 2]]) (Geometry.npMin [[NpF.fin 2]])))
    (by simp [Geometry.normalize])
  show [[NpF.div (NpF.sub (NpF.fin 2) (Geometry.npMin [[NpF.fin 2]]))
    (NpF.sub (Geometry.npMax [[NpF.fin 2]]) (Geometry.npMin [[NpF.fin 2]]))]]
      = [[NpF.nan]]
  rw [he]

/-- C9: polygon extraction on an empty raster — one with no contours —
yields an empty polygon set (a cell with no polygons) and no error, for
every boolean primitive and every hierarchy value (in the source,
`hierarchy` is `None` in this case and is never touched because the
contour loop body never runs). -/
theorem C9_no_contours_empty_polygon_set
    (boolOp : List Gds.Poly → List Gds.Poly → String → List Gds.Poly)
    (hier : List Gds.HierRow) :
    Gds.device_to_gdstk boolOp [] hier = [] := by
  simp [Gds.device_to_gdstk, Gds.buildLevels]

/-- An `Option.mapM` over a list on which the function always succeeds is
the `some` of the pointwise map. -/
theorem mapM_option_eq_map {α β : Type} (f : α → Option β) (g : α → β) (l : List α)
    (h : ∀ x ∈ l, f x = some (g x)) : l.mapM f = some (l.map g) := by
  induction l with
  | nil => rfl
  | cons x xs ih =>
    rw [List.mapM_cons, h x (List.mem_cons_self x xs),
      ih (fun y hy => h y (List.mem_cons_of_mem x hy))]
    rfl

/-- Shape behaviour of the top pad: `t` rows are prepended, width is
kept, and the result is non-empty. -/
theorem npPadTop_spec (t : Nat) (m : Mode) (a : Raster) (w : Nat) (ha : a ≠ [])
    (hw : ∀ r ∈ a, r.length = w) :
    ∃ p, npPadTop t m a = some p ∧ p ≠ [] ∧ p.length = t + a.length ∧
      ∀ r ∈ p, r.length = w := by
  obtain ⟨r0, rs, rfl⟩ := List.exists_cons_of_ne_nil ha
  have hw0 : rasterWidth (r0 :: rs) = w := hw r0 (List.mem_cons_self r0 rs)
  cases m with
  | constant =>
    refine ⟨_, rfl, by simp, by simp, ?_⟩
    intro r hr
    rcases List.mem_append.mp hr with hr | hr
    · rw [List.eq_of_mem_replicate hr, List.length_replicate]
      exact hw0
    · exact hw r hr
  | edge =>
    refine ⟨_, rfl, by simp, by simp, ?_⟩
    intro r hr
    rcases List.mem_append.mp hr with hr | hr
    · rw [List.eq_of_mem_replicate hr]
      exact hw r0 (List.mem_cons_self r0 rs)
    · exact hw r hr

/-- Shape behaviour of the bottom pad: `t` rows are appended. -/
theorem npPadBottom_spec (t : Nat) (m : Mode) (a : Raster) (w : Nat) (ha : a ≠ [])
    (hw : ∀ r ∈ a, r.length = w) :
    ∃ p, npPadBottom t m a = some p ∧ p ≠ [] ∧ p.length = a.length + t ∧
      ∀ r ∈ p, r.length = w := by
  cases m with
  | constant =>
    refine ⟨_, rfl, by simp [ha], by simp, ?_⟩
    intro r hr
    rcases List.mem_append.mp hr with hr | hr
    · exact hw r hr
    · rw [List.eq_of_mem_replicate hr, List.length_replicate]
      have := List.exists_cons_of_ne_nil ha
      obtain ⟨r0, rs, rfl⟩ := this
      exact hw r0 (List.mem_cons_self r0 rs)
  | edge =>
    rcases hl : a.getLast? with _ | rl
    · rw [List.getLast?_eq_none_iff] at hl
      exact absurd hl ha
    · refine ⟨a ++ List.replicate t rl, ?_, by simp [ha], by simp, ?_⟩
      · simp only [npPadBottom, hl]
      · intro r hr
        rcases List.mem_append.mp hr with hr | hr
        · exact hw r hr
        · rw [List.eq_of_mem_replicate hr]
          exact hw rl (List.mem_of_getLast?_eq_some hl)

/-- Shape behaviour of the left pad: `t` entries are prepended to every
row; needs positive width in `edge` mode (numpy raises on an empty axis). -/
theorem npPadLeft_spec (t : Nat) (m : Mode) (a : Raster) (w : Nat) (ha : a ≠ [])
    (hw0 : 0 < w) (hw : ∀ r ∈ a, r.length = w) :
    ∃ p, npPadLeft t m a = some p ∧ p ≠ [] ∧ p.length = a.length ∧
      ∀ r ∈ p, r.length = t + w := by
  cases m with
  | constant =>
    refine ⟨_, rfl, by simp [ha], by simp, ?_⟩
    intro r hr
    rw [List.mem_map] at hr
    obtain ⟨r0, hr0, rfl⟩ := hr
    simp [hw r0 hr0]
  | edge =>
    refine ⟨a.map (fun r => List.replicate t (r.headD (NpF.fin 0)) ++ r), ?_,
      by simp [ha], by simp, ?_⟩
    · apply mapM_option_eq_map
      intro r hr
      rcases r with _ | ⟨x, xs⟩
      · have := hw [] hr
        simp at this
        omega
      · rfl
    · intro r hr
      rw [List.mem_map] at hr
      obtain ⟨r0, hr0, rfl⟩ := hr
      simp [hw r0 hr0]

/-- Shape behaviour of the right pad: `t` entries are appended to every
row; needs positive width in `edge` mode. -/
theorem npPadRight_spec (t : Nat) (m : Mode) (a : Raster) (w : Nat) (ha : a ≠ [])
    (hw0 : 0 < w) (hw : ∀ r ∈ a, r.length = w) :
    ∃ p, npPadRight t m a = some p ∧ p ≠ [] ∧ p.length = a.length ∧
      ∀ r ∈ p, r.length = w + t := by
  cases m with
  | constant =>
    refine ⟨_, rfl, by simp [ha], by simp, ?_⟩
    intro r hr
    rw [List.mem_map] at hr
    obtain ⟨r0, hr0, rfl⟩ := hr
    simp [hw r0 hr0]
  | edge =>
    refine ⟨a.map (fun r => r ++ List.replicate t ((r.getLast?).getD (NpF.fin 0))), ?_,
      by simp [ha], by simp, ?_⟩
    · apply mapM_option_eq_map
      intro r hr
      rcases hl : r.getLast? with _ | x
      · rw [List.getLast?_eq_none_iff] at hl
        subst hl
        have := hw [] hr
        simp at this
        omega
      · rfl
    · intro r hr
      rw [List.mem_map] at hr
      obtain ⟨r0, hr0, rfl⟩ := hr
      simp [hw r0 hr0]

/-- C2: constructing a Device pads every side by `thickness`, and
`to_ndarray` crops exactly the `edge`-mode sides back.  Consequently the
output shape is the input shape plus `thickness` on precisely the
`constant`-mode sides: with all four sides `edge` the original shape is
restored exactly, and each `constant` side leaves its `thickness` padding
in place. -/
theorem C2_buffer_edge_crop_shape (spec : BufferSpec) (a : Raster) (w : Nat)
    (ha : a ≠ []) (hw0 : 0 < w) (hw : ∀ r ∈ a, r.length = w) :
    ∃ d, Device.construct a spec = some d ∧
      d.to_ndarray.length = a.length
        + (if spec.mode .top = .constant then spec.thickness else 0)
        + (if spec.mode .bottom = .constant then spec.thickness else 0) ∧
      ∀ r ∈ d.to_ndarray, r.length = w
        + (if spec.mode .left = .constant then spec.thickness else 0)
        + (if spec.mode .right = .constant then spec.thickness else 0) := by
  set t := spec.thickness with ht
  obtain ⟨p1, hp1, hne1, hlen1, hrow1⟩ :=
    npPadTop_spec t (spec.mode .top) a w ha hw
  obtain ⟨p2, hp2, hne2, hlen2, hrow2⟩ :=
    npPadBottom_spec t (spec.mode .bottom) p1 w hne1 hrow1
  obtain ⟨p3, hp3, hne3, hlen3, hrow3⟩ :=
    npPadLeft_spec t (spec.mode .left) p2 w hne2 hw0 hrow2
  obtain ⟨p4, hp4, hne4, hlen4, hrow4⟩ :=
    npPadRight_spec t (spec.mode .right) p3 (t + w) hne3 (by omega) hrow3
  have hinit : initial_processing spec a = some p4 := by
    unfold initial_processing
    rw [hp1]
    simp only [Option.bind_eq_bind, Option.some_bind]
    rw [hp2]
    simp only [Option.bind_eq_bind, Option.some_bind]
    rw [hp3]
    simp only [Option.bind_eq_bind, Option.some_bind]
    exact hp4
  have hL : p4.length = t + a.length + t := by omega
  have hW : rasterWidth p4 = t + w + t := by
    obtain ⟨h4, t4, rfl⟩ := List.exists_cons_of_ne_nil hne4
    have := hrow4 h4 (List.mem_cons_self h4 t4)
    simp only [rasterWidth, List.headD_cons]
    omega
  refine ⟨⟨p4, spec⟩, ?_, ?_, ?_⟩
  · unfold Device.construct
    rw [hinit]
    rfl
  · show (Device.to_ndarray ⟨p4, spec⟩).length = _
    unfold Device.to_ndarray
    simp only [List.length_map, List.length_take, List.length_drop]
    rw [hL]
    rcases htop : spec.mode Side.top <;> rcases hbot : spec.mode Side.bottom <;>
      simp [htop, hbot] <;> omega
  · intro r hr
    show r.length = _
    unfold Device.to_ndarray at hr
    rw [List.mem_map] at hr
    obtain ⟨r0, hr0, rfl⟩ := hr
    have hr0mem : r0 ∈ p4 := List.mem_of_mem_drop (List.mem_of_mem_take hr0)
    have hr0len : r0.length = t + w + t := hrow4 r0 hr0mem
    simp only [List.length_take, List.length_drop]
    rw [hW, hr0len]
    rcases hleft : spec.mode Side.left <;> rcases hright : spec.mode Side.right <;>
      simp [hleft, hright] <;> omega

/-- A concrete buffer specification with a mix of `constant` and `edge`
sides, for exercising `C2_buffer_edge_crop_shape`. -/
def specC2 : BufferSpec :=
  ⟨fun s => match s with
    | .top => .constant
    | .bottom => .edge
    | .left => .edge
    | .right => .constant, 1⟩

/-- Closed instantiation of `C2_buffer_edge_crop_shape`: a 2×2 raster
with thickness 1 and modes top/right `constant`, bottom/left `edge` comes
back from `to_ndarray` as a 3×3 array — one extra row for the `constant`
top, one extra column for the `constant` right, the `edge` sides cropped
away. -/
theorem C2_witness :
    (Device.construct [[NpF.fin 1, NpF.fin 2], [NpF.fin 3, NpF.fin 4]] specC2).map
        (fun d => (d.to_ndarray.length, d.to_ndarray.map List.length))
      = some (3, [3, 3, 3]) := by
  obtain ⟨d, hd, hlen, hrow⟩ := C2_buffer_edge_crop_shape specC2
    [[NpF.fin 1, NpF.fin 2], [NpF.fin 3, NpF.fin 4]] 2 (by simp) (by omega)
    (by
      intro r hr
      simp only [List.mem_cons, List.not_mem_nil, or_false] at hr
      rcases hr with rfl | rfl <;> rfl)
  rw [hd]
  simp only [Option.map_some']
  have h1 : d.to_ndarray.length = 3 := by
    rw [hlen]
    rfl
  have h2 : d.to_ndarray.map List.length = [3, 3, 3] := by
    have : d.to_ndarray.map List.length = List.replicate 3 3 := by
      rw [List.eq_replicate_iff]
      constructor
      · rw [List.length_map, h1]
      · intro b hb
        rw [List.mem_map] at hb
        obtain ⟨r, hr, rfl⟩ := hb
        rw [hrow r hr]
        rfl
    rw [this]
    rfl
  rw [h1, h2]

/-- The base64 alphabet decodes its own encodings. -/
theorem decChar_encChar : ∀ s : Nat, s < 64 →
    Codec.decChar (Codec.encChar s) = some s := by decide

/-- No alphabet character is the padding character. -/
theorem encChar_ne_padChar : ∀ s : Nat, s < 64 →
    Codec.encChar s ≠ Codec.padChar := by decide

/-- Arithmetic of the middle sextet: dividing recovers the low bits of
the first byte. -/
theorem b64_arith1 (b0 b1 : Nat) (hb1 : b1 < 256) :
    (b0 % 4 * 16 + b1 / 16) / 16 = b0 % 4 := by
  rw [Nat.mul_comm, Nat.mul_add_div (by norm_num)]
  rw [Nat.div_eq_of_lt (by omega)]
  omega

/-- Arithmetic of the middle sextet: its remainder is the high nibble of
the second byte. -/
theorem b64_arith2 (b0 b1 : Nat) (hb1 : b1 < 256) :
    (b0 % 4 * 16 + b1 / 16) % 16 = b1 / 16 := by
  rw [Nat.mul_comm, Nat.mul_add_mod]
  exact Nat.mod_eq_of_lt (by omega)

/-- Arithmetic of the third sextet: dividing recovers the low nibble of
the second byte. -/
theorem b64_arith3 (b1 b2 : Nat) (hb2 : b2 < 256) :
    (b1 % 16 * 4 + b2 / 64) / 4 = b1 % 16 := by
  rw [Nat.mul_comm, Nat.mul_add_div (by norm_num)]
  rw [Nat.div_eq_of_lt (by omega)]
  omega

/-- Arithmetic of the third sextet: its remainder is the top two bits of
the third byte. -/
theorem b64_arith4 (b1 b2 : Nat) (hb2 : b2 < 256) :
    (b1 % 16 * 4 + b2 / 64) % 4 = b2 / 64 := by
  rw [Nat.mul_comm, Nat.mul_add_mod]
  exact Nat.mod_eq_of_lt (by omega)

/-- The base64 text round trip: decoding an encoding recovers the byte
string exactly, for genuine bytes. -/
theorem b64_roundtrip : ∀ l : List Nat, (∀ b ∈ l, b < 256) →
    Codec.b64decode (Codec.b64encode l) = some l := by
  intro l
  induction l using Codec.b64encode.induct with
  | case1 =>
    intro _
    rfl
  | case2 b0 =>
    intro h
    have hb0 : b0 < 256 := h b0 (by simp)
    have h0 := decChar_encChar (b0 / 4) (by omega)
    have h1 := decChar_encChar (b0 % 4 * 16) (by omega)
    simp only [Codec.b64encode, Codec.b64decode, h0, h1, Option.bind_eq_bind,
      Option.some_bind, if_pos rfl, and_self, if_true, Option.some.injEq,
      List.cons.injEq, and_true]
    have e1 : (b0 % 4 * 16) / 16 = b0 % 4 := Nat.mul_div_cancel _ (by norm_num)
    rw [e1]
    omega
  | case3 b0 b1 =>
    intro h
    have hb0 : b0 < 256 := h b0 (by simp)
    have hb1 : b1 < 256 := h b1 (by simp)
    have h0 := decChar_encChar (b0 / 4) (by omega)
    have h1 := decChar_encChar (b0 % 4 * 16 + b1 / 16) (by omega)
    have h2 := decChar_encChar (b1 % 16 * 4) (by omega)
    have hne := encChar_ne_padChar (b1 % 16 * 4) (by omega)
    simp only [Codec.b64encode, Codec.b64decode, h0, h1, h2, Option.bind_eq_bind,
      Option.some_bind, if_neg hne, if_pos rfl, and_self, if_true,
      Option.some.injEq, List.cons.injEq, and_true]
    rw [b64_arith1 b0 b1 hb1, b64_arith2 b0 b1 hb1,
      Nat.mul_div_cancel _ (by norm_num : 0 < 4)]
    constructor <;> omega
  | case4 b0 b1 b2 rest ih =>
    intro h
    have hb0 : b0 < 256 := h b0 (by simp)
    have hb1 : b1 < 256 := h b1 (by simp)
    have hb2 : b2 < 256 := h b2 (by simp)
    have h0 := decChar_encChar (b0 / 4) (by omega)
    have h1 := decChar_encChar (b0 % 4 * 16 + b1 / 16) (by omega)
    have h2 := decChar_encChar (b1 % 16 * 4 + b2 / 64) (by omega)
    have h3 := decChar_encChar (b2 % 64) (by omega)
    have hne2 := encChar_ne_padChar (b1 % 16 * 4 + b2 / 64) (by omega)
    have hne3 := encChar_ne_padChar (b2 % 64) (by omega)
    have hrest := ih (fun b hb => h b (by simp [hb]))
    simp only [Codec.b64encode, Codec.b64decode, h0, h1, h2, h3, hrest,
      Option.bind_eq_bind, Option.some_bind, if_neg hne2, if_neg hne3, if_true,
      List.cons_append, List.nil_append, Option.some.injEq, List.cons.injEq,
      and_true]
    rw [b64_arith1 b0 b1 hb1, b64_arith2 b0 b1 hb1, b64_arith3 b1 b2 hb2,
      b64_arith4 b1 b2 hb2]
    refine ⟨by omega, by omega, by omega⟩

/-- Header bytes are genuine bytes. -/
theorem pack32be_lt (n : Nat) : ∀ b ∈ Codec.pack32be n, b < 256 := by
  intro b hb
  simp only [Codec.pack32be, List.mem_cons, List.not_mem_nil, or_false] at hb
  rcases hb with rfl | rfl | rfl | rfl <;> omega

/-- Payload bytes are genuine bytes. -/
theorem bytes4le_lt (n : Nat) : ∀ b ∈ Codec.bytes4le n, b < 256 := by
  intro b hb
  simp only [Codec.bytes4le, List.mem_cons, List.not_mem_nil, or_false] at hb
  rcases hb with rfl | rfl | rfl | rfl <;> omega

/-- The big-endian header field round trip. -/
theorem unpack32be_pack32be (n : Nat) (h : n < 2 ^ 32) :
    Codec.unpack32be (Codec.pack32be n) = n := by
  simp only [Codec.unpack32be, Codec.pack32be, List.getD_cons_zero, List.getD_cons_succ]
  omega

/-- Chunking the concatenated 4-byte groups recovers the 32-bit values. -/
theorem chunk4_flatMap_bytes4le (l : List Nat) (h : ∀ x ∈ l, x < 2 ^ 32) :
    Codec.chunk4 (l.flatMap Codec.bytes4le) = l := by
  induction l with
  | nil => rfl
  | cons x xs ih =>
    have hstep : (x :: xs).flatMap Codec.bytes4le
        = x % 256 :: x / 2 ^ 8 % 256 :: x / 2 ^ 16 % 256 :: x / 2 ^ 24 % 256
          :: xs.flatMap Codec.bytes4le := rfl
    rw [hstep]
    simp only [Codec.chunk4]
    rw [ih (fun y hy => h y (List.mem_cons_of_mem x hy))]
    have hx := h x (List.mem_cons_self x xs)
    congr 1
    omega

/-- The payload of a list of 32-bit values has four bytes per value. -/
theorem length_flatMap_bytes4le (l : List Nat) :
    (l.flatMap Codec.bytes4le).length = 4 * l.length := by
  induction l with
  | nil => rfl
  | cons x xs ih =>
    rw [List.flatMap_cons, List.length_append, ih]
    simp only [Codec.bytes4le, List.length_cons, List.length_nil]
    omega

/-- Flattening a rectangular 2D list has `rows * width` entries. -/
theorem length_flatten_rect (a : List (List Nat)) (w : Nat)
    (hw : ∀ r ∈ a, r.length = w) : a.flatten.length = a.length * w := by
  induction a with
  | nil => simp
  | cons r rs ih =>
    rw [List.flatten_cons, List.length_append, hw r (List.mem_cons_self r rs),
      ih (fun s hs => hw s (List.mem_cons_of_mem r hs))]
    simp only [List.length_cons, Nat.succ_mul]
    omega

/-- Reshaping the flattened elements by the original row count and width
recovers the 2D list. -/
theorem toRows_flatten (w : Nat) (a : List (List Nat))
    (hw : ∀ r ∈ a, r.length = w) :
    Codec.toRows w a.length a.flatten = a := by
  induction a with
  | nil => rfl
  | cons r rs ih =>
    simp only [List.length_cons, List.flatten_cons, Codec.toRows]
    rw [List.take_left' (hw r (List.mem_cons_self r rs)),
      List.drop_left' (hw r (List.mem_cons_self r rs)),
      ih (fun s hs => hw s (List.mem_cons_of_mem r hs))]

/-- C1: decoding the encoded form of a non-empty 2D float32 raster
returns the raster exactly, bit for bit.  Rasters are taken at the
codec's own level of abstraction — rows of 32-bit patterns — and the
encoding is the 8-byte big-endian `(height, width)` header followed by
the raw little-endian row-major payload, base64-encoded.  The
well-formedness hypotheses (non-empty, rectangular, dimensions and
elements below `2^32`) are exactly the conditions under which
`struct.pack` and the float32 buffer view are defined. -/
theorem C1_codec_roundtrip (a : Codec.BitRaster) (w : Nat) (ha : a ≠ [])
    (hh : a.length < 2 ^ 32) (hww : w < 2 ^ 32)
    (hw : ∀ r ∈ a, r.length = w)
    (hel : ∀ r ∈ a, ∀ x ∈ r, x < 2 ^ 32) :
    Codec.decode_array (Codec.encode_array a) = some a := by
  have hwidth : (a.headD []).length = w := by
    obtain ⟨r0, rs, rfl⟩ := List.exists_cons_of_ne_nil ha
    exact hw r0 (List.mem_cons_self r0 rs)
  have hflat : ∀ x ∈ a.flatten, x < 2 ^ 32 := by
    intro x hx
    rw [List.mem_flatten] at hx
    obtain ⟨r, hr, hxr⟩ := hx
    exact hel r hr x hxr
  have hflen : a.flatten.length = a.length * w := length_flatten_rect a w hw
  set payload := a.flatten.flatMap Codec.bytes4le with hpay
  set serialized :=
    (Codec.pack32be a.length ++ Codec.pack32be (a.headD []).length) ++ payload
    with hser
  have hbytes : ∀ b ∈ serialized, b < 256 := by
    intro b hb
    rw [hser] at hb
    rcases List.mem_append.mp hb with hb | hb
    · rcases List.mem_append.mp hb with hb | hb
      · exact pack32be_lt _ b hb
      · exact pack32be_lt _ b hb
    · rw [hpay, List.mem_flatMap] at hb
      obtain ⟨x, hx, hbx⟩ := hb
      exact bytes4le_lt x b hbx
  have hplen : payload.length = 4 * (a.length * w) := by
    rw [hpay, length_flatMap_bytes4le, hflen]
  have hslen : serialized.length = 8 + 4 * (a.length * w) := by
    rw [hser]
    simp only [List.length_append, Codec.pack32be, List.length_cons,
      List.length_nil, hplen]
  have htake4 : serialized.take 4 = Codec.pack32be a.length := by
    rw [hser, List.append_assoc]
    exact List.take_left' (by simp [Codec.pack32be])
  have hdrop4 : (serialized.drop 4).take 4 = Codec.pack32be (a.headD []).length := by
    rw [hser, List.append_assoc, List.drop_left' (by simp [Codec.pack32be])]
    exact List.take_left' (by simp [Codec.pack32be])
  have hdrop8 : serialized.drop 8 = payload := by
    rw [hser]
    exact List.drop_left' (by simp [Codec.pack32be])
  have hrt : Codec.b64decode (Codec.b64encode serialized) = some serialized :=
    b64_roundtrip serialized hbytes
  have henc : Codec.encode_array a = Codec.b64encode serialized := by
    rw [hser, hpay]
    rfl
  unfold Codec.decode_array
  rw [henc, hrt]
  simp only [Option.bind_eq_bind, Option.some_bind]
  rw [if_pos (show 8 ≤ serialized.length ∧ (serialized.length - 8) % 4 = 0 by
    rw [hslen]; omega)]
  simp only [htake4, hdrop4, hdrop8, unpack32be_pack32be a.length hh, hwidth,
    unpack32be_pack32be w hww]
  rw [hpay, chunk4_flatMap_bytes4le a.flatten hflat]
  rw [if_pos hflen]
  rw [toRows_flatten w a hw]

/-- Closed instantiation of `C1_codec_roundtrip` on a concrete 2×2
bit-pattern raster. -/
theorem C1_witness :
    Codec.decode_array (Codec.encode_array [[1, 2], [3, 4]])
      = some [[1, 2], [3, 4]] :=
  C1_codec_roundtrip [[1, 2], [3, 4]] 2 (by simp) (by norm_num) (by norm_num)
    (by
      intro r hr
      simp only [List.mem_cons, List.not_mem_nil, or_false] at hr
      rcases hr with rfl | rfl <;> rfl)
    (by
      intro r hr x hx
      simp only [List.mem_cons, List.not_mem_nil, or_false] at hr
      rcases hr with rfl | rfl <;>
        simp only [List.mem_cons, List.not_mem_nil, or_false] at hx <;>
        rcases hx with rfl | rfl <;> norm_num)

namespace Geometry

/-- Row `i` contains a nonzero element (specification-side predicate for
the bounding box of `trim`). -/
def rowNonzero (a : Raster) (i : Nat) : Bool :=
  (a.getD i []).any (fun v => decide (v ≠ NpF.fin 0))

/-- Column `j` contains a nonzero element. -/
def colNonzero (a : Raster) (j : Nat) : Bool :=
  a.any (fun r => decide (r.getD j (NpF.fin 0) ≠ NpF.fin 0))

end Geometry

/-- Membership in the nonzero index list. -/
theorem mem_nonzeroIdx (a : Raster) (i j : Nat) :
    (i, j) ∈ Geometry.nonzeroIdx a ↔
      i < a.length ∧ j < (a.getD i []).length ∧
        (a.getD i []).getD j (NpF.fin 0) ≠ NpF.fin 0 := by
  simp only [Geometry.nonzeroIdx, List.mem_flatMap, List.mem_map, List.mem_filter,
    List.mem_range, Prod.mk.injEq, decide_eq_true_eq]
  constructor
  · rintro ⟨i', hi', j', ⟨hj', hp⟩, rfl, rfl⟩
    exact ⟨hi', hj', hp⟩
  · rintro ⟨hi, hj, hp⟩
    exact ⟨i, hi, j, ⟨hj, hp⟩, rfl, rfl⟩

/-- A nonzero row index is within bounds. -/
theorem rowNonzero_lt_length (a : Raster) (i : Nat)
    (h : Geometry.rowNonzero a i = true) : i < a.length := by
  unfold Geometry.rowNonzero at h
  rw [List.any_eq_true] at h
  obtain ⟨v, hv, -⟩ := h
  by_contra hcon
  rw [List.getD_eq_getElem?_getD, List.getElem?_eq_none (by omega)] at hv
  simp at hv

/-- With a rectangular raster, a nonzero column index is within the
width. -/
theorem colNonzero_lt_width (a : Raster) (j w : Nat)
    (hw : ∀ r ∈ a, r.length = w) (h : Geometry.colNonzero a j = true) : j < w := by
  unfold Geometry.colNonzero at h
  rw [List.any_eq_true] at h
  obtain ⟨r, hr, hp⟩ := h
  rw [decide_eq_true_eq] at hp
  have hj : j < r.length := by
    by_contra hcon
    rw [List.getD_eq_getElem?_getD, List.getElem?_eq_none (by omega)] at hp
    simp at hp
  rw [hw r hr] at hj
  exact hj

/-- The row components of the nonzero index list are precisely the
nonzero rows. -/
theorem mem_nonzeroRows (a : Raster) (i : Nat) :
    i ∈ (Geometry.nonzeroIdx a).map Prod.fst ↔ Geometry.rowNonzero a i = true := by
  rw [List.mem_map]
  constructor
  · rintro ⟨⟨i', j⟩, hmem, rfl⟩
    rw [mem_nonzeroIdx] at hmem
    unfold Geometry.rowNonzero
    rw [List.any_eq_true]
    refine ⟨(a.getD i' []).getD j (NpF.fin 0), ?_,
      by rw [decide_eq_true_eq]; exact hmem.2.2⟩
    rw [List.getD_eq_getElem?_getD (a.getD i' []), List.getElem?_eq_getElem hmem.2.1]
    exact List.getElem_mem hmem.2.1
  · intro hrow
    unfold Geometry.rowNonzero at hrow
    rw [List.any_eq_true] at hrow
    obtain ⟨v, hv, hvp⟩ := hrow
    rw [decide_eq_true_eq] at hvp
    obtain ⟨j, hj, hveq⟩ := List.mem_iff_getElem.mp hv
    have hi : i < a.length := by
      by_contra hcon
      have hgd : a.getD i [] = [] := by
        rw [List.getD_eq_getElem?_getD, List.getElem?_eq_none (by omega)]
        rfl
      rw [hgd] at hj
      simp at hj
    refine ⟨(i, j), ?_, rfl⟩
    rw [mem_nonzeroIdx]
    refine ⟨hi, hj, ?_⟩
    rw [List.getD_eq_getElem?_getD, List.getElem?_eq_getElem hj]
    show (a.getD i [])[j] ≠ NpF.fin 0
    rw [hveq]
    exact hvp

/-- The column components of the nonzero index list are precisely the
nonzero columns. -/
theorem mem_nonzeroCols (a : Raster) (j : Nat) :
    j ∈ (Geometry.nonzeroIdx a).map Prod.snd ↔ Geometry.colNonzero a j = true := by
  rw [List.mem_map]
  constructor
  · rintro ⟨⟨i, j'⟩, hmem, rfl⟩
    rw [mem_nonzeroIdx] at hmem
    unfold Geometry.colNonzero
    rw [List.any_eq_true]
    refine ⟨a.getD i [], ?_, by rw [decide_eq_true_eq]; exact hmem.2.2⟩
    rw [List.getD_eq_getElem?_getD a, List.getElem?_eq_getElem hmem.1]
    exact List.getElem_mem hmem.1
  · intro hcol
    unfold Geometry.colNonzero at hcol
    rw [List.any_eq_true] at hcol
    obtain ⟨r, hr, hrp⟩ := hcol
    rw [decide_eq_true_eq] at hrp
    obtain ⟨i, hi, hreq⟩ := List.mem_iff_getElem.mp hr
    have hj : j < r.length := by
      by_contra hcon
      rw [List.getD_eq_getElem?_getD, List.getElem?_eq_none (by omega)] at hrp
      simp at hrp
    refine ⟨(i, j), ?_, rfl⟩
    rw [mem_nonzeroIdx]
    have hgetD : a.getD i [] = r := by
      rw [List.getD_eq_getElem?_getD, List.getElem?_eq_getElem hi]
      show a[i] = r
      exact hreq
    rw [hgetD]
    exact ⟨hi, hj, hrp⟩

/-- A min-fold is bounded by its initial value. -/
theorem foldl_min_le_init (l : List Nat) (acc : Nat) : l.foldl Nat.min acc ≤ acc := by
  induction l generalizing acc with
  | nil => exact Nat.le_refl acc
  | cons x xs ih =>
    rw [List.foldl_cons]
    exact Nat.le_trans (ih (Nat.min acc x)) (Nat.min_le_left acc x)

/-- A min-fold is bounded by every list element. -/
theorem foldl_min_le_mem (l : List Nat) (acc x : Nat) (hx : x ∈ l) :
    l.foldl Nat.min acc ≤ x := by
  induction l generalizing acc with
  | nil => simp at hx
  | cons y ys ih =>
    rw [List.foldl_cons]
    rcases List.mem_cons.mp hx with rfl | hx
    · exact Nat.le_trans (foldl_min_le_init ys (Nat.min acc x)) (Nat.min_le_right acc x)
    · exact ih (Nat.min acc y) hx

/-- A min-fold returns its initial value or a list element. -/
theorem foldl_min_mem_or (l : List Nat) (acc : Nat) :
    l.foldl Nat.min acc = acc ∨ l.foldl Nat.min acc ∈ l := by
  induction l generalizing acc with
  | nil => exact Or.inl rfl
  | cons x xs ih =>
    rw [List.foldl_cons]
    rcases ih (Nat.min acc x) with h | h
    · rw [h]
      by_cases hc : acc ≤ x
      · exact Or.inl (Nat.min_eq_left hc)
      · have hx : Nat.min acc x = x := Nat.min_eq_right (by omega)
        rw [hx]
        exact Or.inr (List.mem_cons_self x xs)
    · exact Or.inr (List.mem_cons_of_mem x h)

/-- A max-fold dominates its initial value. -/
theorem foldl_max_ge_init (l : List Nat) (acc : Nat) : acc ≤ l.foldl Nat.max acc := by
  induction l generalizing acc with
  | nil => exact Nat.le_refl acc
  | cons x xs ih =>
    rw [List.foldl_cons]
    exact Nat.le_trans (Nat.le_max_left acc x) (ih (Nat.max acc x))

/-- A max-fold dominates every list element. -/
theorem foldl_max_ge_mem (l : List Nat) (acc x : Nat) (hx : x ∈ l) :
    x ≤ l.foldl Nat.max acc := by
  induction l generalizing acc with
  | nil => simp at hx
  | cons y ys ih =>
    rw [List.foldl_cons]
    rcases List.mem_cons.mp hx with rfl | hx
    · exact Nat.le_trans (Nat.le_max_right acc x) (foldl_max_ge_init ys (Nat.max acc x))
    · exact ih (Nat.max acc y) hx

/-- A max-fold returns its initial value or a list element. -/
theorem foldl_max_mem_or (l : List Nat) (acc : Nat) :
    l.foldl Nat.max acc = acc ∨ l.foldl Nat.max acc ∈ l := by
  induction l generalizing acc with
  | nil => exact Or.inl rfl
  | cons x xs ih =>
    rw [List.foldl_cons]
    rcases ih (Nat.max acc x) with h | h
    · rw [h]
      by_cases hc : acc ≤ x
      · have hx : Nat.max acc x = x := Nat.max_eq_right hc
        rw [hx]
        exact Or.inr (List.mem_cons_self x xs)
      · exact Or.inl (Nat.max_eq_left (by omega))
    · exact Or.inr (List.mem_cons_of_mem x h)

/-- `listMin` of a non-empty list is a member. -/
theorem listMin_mem (l : List Nat) (h : l ≠ []) : Geometry.listMin l ∈ l := by
  obtain ⟨x, xs, rfl⟩ := List.exists_cons_of_ne_nil h
  simp only [Geometry.listMin]
  rcases foldl_min_mem_or xs x with h2 | h2
  · rw [h2]
    exact List.mem_cons_self x xs
  · exact List.mem_cons_of_mem x h2

/-- `listMin` is a lower bound. -/
theorem listMin_le (l : List Nat) (x : Nat) (hx : x ∈ l) : Geometry.listMin l ≤ x := by
  rcases l with _ | ⟨y, ys⟩
  · simp at hx
  · simp only [Geometry.listMin]
    rcases List.mem_cons.mp hx with rfl | hx
    · exact foldl_min_le_init ys x
    · exact foldl_min_le_mem ys y x hx

/-- `listMax` of a non-empty list is a member. -/
theorem listMax_mem (l : List Nat) (h : l ≠ []) : Geometry.listMax l ∈ l := by
  obtain ⟨x, xs, rfl⟩ := List.exists_cons_of_ne_nil h
  simp only [Geometry.listMax]
  rcases foldl_max_mem_or xs x with h2 | h2
  · rw [h2]
    exact List.mem_cons_self x xs
  · exact List.mem_cons_of_mem x h2

/-- `listMax` is an upper bound. -/
theorem le_listMax (l : List Nat) (x : Nat) (hx : x ∈ l) : x ≤ Geometry.listMax l := by
  rcases l with _ | ⟨y, ys⟩
  · simp at hx
  · simp only [Geometry.listMax]
    rcases List.mem_cons.mp hx with rfl | hx
    · exact foldl_max_ge_init ys x
    · exact foldl_max_ge_mem ys y x hx

/-- The minimum of `nonzero_rows` is the least nonzero row. -/
theorem listMin_rows_eq (a : Raster) (hrow : ∃ i, Geometry.rowNonzero a i = true) :
    Geometry.listMin ((Geometry.nonzeroIdx a).map Prod.fst) = Nat.find hrow := by
  have hne : (Geometry.nonzeroIdx a).map Prod.fst ≠ [] := by
    obtain ⟨i, hi⟩ := hrow
    have hmm := (mem_nonzeroRows a i).mpr hi
    intro hcon
    rw [hcon] at hmm
    simp at hmm
  symm
  rw [Nat.find_eq_iff]
  refine ⟨(mem_nonzeroRows a _).mp (listMin_mem _ hne), ?_⟩
  intro n hn hcon
  have := listMin_le _ n ((mem_nonzeroRows a n).mpr hcon)
  omega

/-- The maximum of `nonzero_rows` is the greatest nonzero row. -/
theorem listMax_rows_eq (a : Raster) (hrow : ∃ i, Geometry.rowNonzero a i = true) :
    Geometry.listMax ((Geometry.nonzeroIdx a).map Prod.fst)
      = Nat.findGreatest (fun i => Geometry.rowNonzero a i = true) a.length := by
  have hne : (Geometry.nonzeroIdx a).map Prod.fst ≠ [] := by
    obtain ⟨i, hi⟩ := hrow
    have hmm := (mem_nonzeroRows a i).mpr hi
    intro hcon
    rw [hcon] at hmm
    simp at hmm
  have hMmem := listMax_mem _ hne
  have hMrow := (mem_nonzeroRows a _).mp hMmem
  symm
  rw [Nat.findGreatest_eq_iff]
  refine ⟨?_, fun _ => hMrow, ?_⟩
  · have := rowNonzero_lt_length a _ hMrow
    omega
  · intro n hMn _ hcon
    have := le_listMax _ n ((mem_nonzeroRows a n).mpr hcon)
    omega

/-- The minimum of `nonzero_cols` is the least nonzero column. -/
theorem listMin_cols_eq (a : Raster) (hcol : ∃ j, Geometry.colNonzero a j = true) :
    Geometry.listMin ((Geometry.nonzeroIdx a).map Prod.snd) = Nat.find hcol := by
  have hne : (Geometry.nonzeroIdx a).map Prod.snd ≠ [] := by
    obtain ⟨j, hj⟩ := hcol
    have hmm := (mem_nonzeroCols a j).mpr hj
    intro hcon
    rw [hcon] at hmm
    simp at hmm
  symm
  rw [Nat.find_eq_iff]
  refine ⟨(mem_nonzeroCols a _).mp (listMin_mem _ hne), ?_⟩
  intro n hn hcon
  have := listMin_le _ n ((mem_nonzeroCols a n).mpr hcon)
  omega

/-- The maximum of `nonzero_cols` is the greatest nonzero column
(bounded by the rectangular width). -/
theorem listMax_cols_eq (a : Raster) (w : Nat) (hw : ∀ r ∈ a, r.length = w)
    (hcol : ∃ j, Geometry.colNonzero a j = true) :
    Geometry.listMax ((Geometry.nonzeroIdx a).map Prod.snd)
      = Nat.findGreatest (fun j => Geometry.colNonzero a j = true) w := by
  have hne : (Geometry.nonzeroIdx a).map Prod.snd ≠ [] := by
    obtain ⟨j, hj⟩ := hcol
    have hmm := (mem_nonzeroCols a j).mpr hj
    intro hcon
    rw [hcon] at hmm
    simp at hmm
  have hMmem := listMax_mem _ hne
  have hMcol := (mem_nonzeroCols a _).mp hMmem
  symm
  rw [Nat.findGreatest_eq_iff]
  refine ⟨?_, fun _ => hMcol, ?_⟩
  · have := colNonzero_lt_width a _ w hw hMcol
    omega
  · intro n hMn _ hcon
    have := le_listMax _ n ((mem_nonzeroCols a n).mpr hcon)
    omega

/-- On a raster with a nonzero element, `trim` takes the `some` branch
with the min/max bounds of the nonzero index list. -/
theorem trim_eq_of_ne_nil (a : Raster) (bt : Nat)
    (hne : Geometry.nonzeroIdx a ≠ []) :
    Geometry.trim a bt = some
      (((a.drop (Geometry.listMin ((Geometry.nonzeroIdx a).map Prod.fst) - bt)).take
          (Nat.min (Geometry.listMax ((Geometry.nonzeroIdx a).map Prod.fst) + bt + 1)
              a.length
            - (Geometry.listMin ((Geometry.nonzeroIdx a).map Prod.fst) - bt))).map
        (fun r =>
          (r.drop (Geometry.listMin ((Geometry.nonzeroIdx a).map Prod.snd) - bt)).take
            (Nat.min (Geometry.listMax ((Geometry.nonzeroIdx a).map Prod.snd) + bt + 1)
                (a.headD []).length
              - (Geometry.listMin ((Geometry.nonzeroIdx a).map Prod.snd) - bt)))) := by
  unfold Geometry.trim
  split
  · next heq => exact absurd heq hne
  · next => rfl

/-- C6: on a raster with at least one nonzero element, `trim` returns
the subarray covering the bounding box of the nonzero elements expanded
by `buffer_thickness` on each side and clamped to the array bounds.  The
bounding box is characterised independently of the code by `Nat.find`
(least nonzero row/column) and `Nat.findGreatest` (greatest nonzero
row/column), and the slice is drop/take on rows and columns with the
clamped bounds `max(lo - bt, 0)` (natural subtraction) and
`min(hi + bt + 1, size)`. -/
theorem C6_trim_bounding_box (a : Raster) (bt : Nat) (w : Nat)
    (hrect : ∀ r ∈ a, r.length = w)
    (hrow : ∃ i, Geometry.rowNonzero a i = true)
    (hcol : ∃ j, Geometry.colNonzero a j = true) :
    Geometry.trim a bt = some
      (((a.drop (Nat.find hrow - bt)).take
          (Nat.min
              (Nat.findGreatest (fun i => Geometry.rowNonzero a i = true) a.length
                + bt + 1) a.length
            - (Nat.find hrow - bt))).map
        (fun r =>
          (r.drop (Nat.find hcol - bt)).take
            (Nat.min
                (Nat.findGreatest (fun j => Geometry.colNonzero a j = true) w
                  + bt + 1) w
              - (Nat.find hcol - bt)))) := by
  have hane : a ≠ [] := by
    obtain ⟨i, hi⟩ := hrow
    have := rowNonzero_lt_length a i hi
    intro hcon
    rw [hcon] at this
    simp at this
  have hwidth : (a.headD []).length = w := by
    obtain ⟨r0, rs, rfl⟩ := List.exists_cons_of_ne_nil hane
    exact hrect r0 (List.mem_cons_self r0 rs)
  have hne : Geometry.nonzeroIdx a ≠ [] := by
    obtain ⟨i, hi⟩ := hrow
    have hmm := (mem_nonzeroRows a i).mpr hi
    rw [List.mem_map] at hmm
    obtain ⟨p, hp, -⟩ := hmm
    intro hcon
    rw [hcon] at hp
    simp at hp
  rw [trim_eq_of_ne_nil a bt hne, listMin_rows_eq a hrow, listMax_rows_eq a hrow,
    listMin_cols_eq a hcol, listMax_cols_eq a w hrect hcol, hwidth]

/-- A 9×9 raster whose single nonzero pixel sits at `(5,5)`. -/
def exC6 : Raster :=
  (List.range 9).map (fun i => (List.range 9).map
    (fun j => if i = 5 ∧ j = 5 then NpF.fin 1 else NpF.fin 0))

/-- The expected `trim` output for `exC6` with buffer 2: the 5×5 window
of rows 3..7 and columns 3..7, leaving the pixel at its centre. -/
def exC6trimmed : Raster :=
  (List.range 5).map (fun i => (List.range 5).map
    (fun j => if i = 2 ∧ j = 2 then NpF.fin 1 else NpF.fin 0))

/-- Closed instantiation of `C6_trim_bounding_box`: a single nonzero
pixel at `(5,5)` with buffer thickness 2 yields the 5×5 window from
`(3,3)` to `(7,7)`. -/
theorem C6_witness : Geometry.trim exC6 2 = some exC6trimmed := by
  have hrow : ∃ i, Geometry.rowNonzero exC6 i = true := ⟨5, by decide⟩
  have hcol : ∃ j, Geometry.colNonzero exC6 j = true := ⟨5, by decide⟩
  have h := C6_trim_bounding_box exC6 2 9 (by decide) hrow hcol
  have h1 : Nat.find hrow = 5 := (Nat.find_eq_iff hrow).mpr ⟨by decide, by decide⟩
  have h2 : Nat.findGreatest (fun i => Geometry.rowNonzero exC6 i = true)
      exC6.length = 5 := by decide
  have h3 : Nat.find hcol = 5 := (Nat.find_eq_iff hcol).mpr ⟨by decide, by decide⟩
  have h4 : Nat.findGreatest (fun j => Geometry.colNonzero exC6 j = true) 9 = 5 := by
    decide
  rw [h, h1, h2, h3, h4]
  decide

/-- `buildLevels` is the fold of the per-contour dictionary step. -/
theorem buildLevels_eq (hier : List Gds.HierRow) (contours : List Gds.Poly) :
    Gds.buildLevels hier contours
      = contours.enum.foldl
          (fun dict ic =>
            if ic.2.length > 2 then
              Gds.assocAppend dict
                (Gds.contourLevel hier (hier.length + 1) (Int.ofNat ic.1))
                (Gds.scalePoly ic.2)
            else dict) [] := rfl

/-- Looking a key up after an `assocAppend`: the appended key gains the
value at the end of its bucket, every other key is untouched. -/
theorem lookup_assocAppend (dict : List (Nat × List Gds.Poly)) (k k' : Nat)
    (v : Gds.Poly) :
    ((Gds.assocAppend dict k v).lookup k')
      = if k' = k then some (((dict.lookup k').getD []) ++ [v])
        else dict.lookup k' := by
  induction dict with
  | nil =>
    by_cases h : k' = k
    · subst h
      simp [Gds.assocAppend, List.lookup]
    · have hb : (k' == k) = false := beq_eq_false_iff_ne.mpr h
      simp [Gds.assocAppend, List.lookup, hb, if_neg h]
  | cons p rest ih =>
    obtain ⟨k0, vs⟩ := p
    by_cases h0 : k0 = k
    · subst h0
      simp only [Gds.assocAppend, if_pos rfl]
      by_cases h1 : k' = k0
      · subst h1
        simp [List.lookup]
      · have hb : (k' == k0) = false := beq_eq_false_iff_ne.mpr h1
        simp [List.lookup, hb, if_neg h1]
    · simp only [Gds.assocAppend, if_neg h0]
      by_cases h1 : k' = k0
      · subst h1
        simp only [List.lookup, beq_self_eq_true]
        rw [if_neg (by omega)]
      · have hb : (k' == k0) = false := beq_eq_false_iff_ne.mpr h1
        simp only [List.lookup, hb]
        exact ih

/-- Keys after an `assocAppend`: unchanged when the key exists, appended
at the end otherwise. -/
theorem keys_assocAppend (dict : List (Nat × List Gds.Poly)) (k : Nat)
    (v : Gds.Poly) :
    (Gds.assocAppend dict k v).map Prod.fst
      = if k ∈ dict.map Prod.fst then dict.map Prod.fst
        else dict.map Prod.fst ++ [k] := by
  induction dict with
  | nil => simp [Gds.assocAppend]
  | cons p rest ih =>
    obtain ⟨k0, vs⟩ := p
    by_cases h0 : k0 = k
    · subst h0
      simp [Gds.assocAppend]
    · simp only [Gds.assocAppend, if_neg h0, List.map_cons, ih]
      by_cases hmem : k ∈ rest.map Prod.fst
      · rw [if_pos hmem, if_pos (by simp [hmem])]
      · rw [if_neg hmem, if_neg (by
          simp only [List.mem_cons]
          rintro (h | h)
          · exact h0 h.symm
          · exact hmem h)]
        simp

/-- Bucket contents of the level dictionary built by the contour fold:
the starting bucket followed by the scaled polygons of the kept contours
at that level, in order. -/
theorem gds_foldl_lookup (lev : Nat → Nat) (l : List (Nat × Gds.Poly))
    (dict : List (Nat × List Gds.Poly)) (d : Nat) :
    (((l.foldl (fun dict ic =>
        if ic.2.length > 2 then
          Gds.assocAppend dict (lev ic.1) (Gds.scalePoly ic.2)
        else dict) dict).lookup d).getD [])
      = ((dict.lookup d).getD [])
        ++ (l.filter (fun ic =>
              decide (ic.2.length > 2) && decide (lev ic.1 = d))).map
            (fun ic => Gds.scalePoly ic.2) := by
  induction l generalizing dict with
  | nil => simp
  | cons ic l ih =>
    rw [List.foldl_cons, ih, List.filter_cons]
    by_cases hkept : ic.2.length > 2
    · by_cases hlev : lev ic.1 = d
      · rw [if_pos hkept, if_pos (by simp [hkept, hlev])]
        rw [lookup_assocAppend, hlev, if_pos rfl]
        simp
      · rw [if_pos hkept, if_neg (by simp [hlev])]
        rw [lookup_assocAppend, if_neg (by omega)]
    · rw [if_neg hkept, if_neg (by simp [hkept])]

/-- Key membership in the level dictionary built by the contour fold. -/
theorem gds_foldl_keys_mem (lev : Nat → Nat) (l : List (Nat × Gds.Poly))
    (dict : List (Nat × List Gds.Poly)) (d : Nat) :
    (d ∈ (l.foldl (fun dict ic =>
        if ic.2.length > 2 then
          Gds.assocAppend dict (lev ic.1) (Gds.scalePoly ic.2)
        else dict) dict).map Prod.fst)
      ↔ d ∈ dict.map Prod.fst ∨ ∃ ic ∈ l, ic.2.length > 2 ∧ lev ic.1 = d := by
  induction l generalizing dict with
  | nil => simp
  | cons ic l ih =>
    rw [List.foldl_cons, ih]
    have hsplit : (∃ ic' ∈ ic :: l, ic'.2.length > 2 ∧ lev ic'.1 = d)
        ↔ (ic.2.length > 2 ∧ lev ic.1 = d)
          ∨ ∃ ic' ∈ l, ic'.2.length > 2 ∧ lev ic'.1 = d := by
      constructor
      · rintro ⟨ic', hic', hk, hl⟩
        rcases List.mem_cons.mp hic' with rfl | hic'
        · exact Or.inl ⟨hk, hl⟩
        · exact Or.inr ⟨ic', hic', hk, hl⟩
      · rintro (⟨hk, hl⟩ | ⟨ic', hic', hk, hl⟩)
        · exact ⟨ic, List.mem_cons_self ic l, hk, hl⟩
        · exact ⟨ic', List.mem_cons_of_mem ic hic', hk, hl⟩
    rw [hsplit]
    by_cases hkept : ic.2.length > 2
    · rw [if_pos hkept, keys_assocAppend]
      by_cases hmem : lev ic.1 ∈ dict.map Prod.fst
      · rw [if_pos hmem]
        constructor
        · rintro (h | h)
          · exact Or.inl h
          · exact Or.inr (Or.inr h)
        · rintro (h | (⟨hk, hl⟩ | h))
          · exact Or.inl h
          · exact Or.inl (hl ▸ hmem)
          · exact Or.inr h
      · rw [if_neg hmem]
        constructor
        · rintro (h | h)
          · rcases List.mem_append.mp h with h | h
            · exact Or.inl h
            · rcases List.mem_singleton.mp h with rfl
              exact Or.inr (Or.inl ⟨hkept, rfl⟩)
          · exact Or.inr (Or.inr h)
        · rintro (h | (⟨hk, hl⟩ | h))
          · exact Or.inl (List.mem_append_left _ h)
          · exact Or.inl (List.mem_append_right _ (by simp [hl]))
          · exact Or.inr h
    · rw [if_neg hkept]
      constructor
      · rintro (h | h)
        · exact Or.inl h
        · exact Or.inr (Or.inr h)
      · rintro (h | (⟨hk, hl⟩ | h))
        · exact Or.inl h
        · exact absurd hk hkept
        · exact Or.inr h

/-- The level dictionary's key list stays duplicate-free through the
contour fold. -/
theorem gds_foldl_keys_nodup (lev : Nat → Nat) (l : List (Nat × Gds.Poly))
    (dict : List (Nat × List Gds.Poly)) (hd : (dict.map Prod.fst).Nodup) :
    ((l.foldl (fun dict ic =>
        if ic.2.length > 2 then
          Gds.assocAppend dict (lev ic.1) (Gds.scalePoly ic.2)
        else dict) dict).map Prod.fst).Nodup := by
  induction l generalizing dict with
  | nil => exact hd
  | cons ic l ih =>
    rw [List.foldl_cons]
    by_cases hkept : ic.2.length > 2
    · rw [if_pos hkept]
      apply ih
      rw [keys_assocAppend]
      by_cases hmem : lev ic.1 ∈ dict.map Prod.fst
      · rw [if_pos hmem]
        exact hd
      · rw [if_neg hmem]
        rw [List.nodup_append]
        exact ⟨hd, List.nodup_singleton _, by
          intro x hx hx2
          rcases List.mem_singleton.mp hx2 with rfl
          exact hmem hx⟩
    · rw [if_neg hkept]
      exact ih dict hd

/-- Zeta-expanded form of `device_to_gdstk`. -/
theorem device_to_gdstk_eq (boolOp : List Gds.Poly → List Gds.Poly → String → List Gds.Poly)
    (contours : List Gds.Poly) (hier : List Gds.HierRow) :
    Gds.device_to_gdstk boolOp contours hier
      = (((Gds.buildLevels hier contours).map Prod.fst).mergeSort
          (fun a b => a ≤ b)).foldl
          (fun processed level =>
            if (((Gds.buildLevels hier contours).lookup level).getD []).isEmpty then
              processed
            else
              boolOp (((Gds.buildLevels hier contours).lookup level).getD []) processed
                (if level % 2 = 0 then "or" else "xor")) [] := rfl

/-- Fold congruence over a list, for pointwise-equal step functions. -/
theorem foldl_congr_mem {α β : Type} (l : List α) (f g : β → α → β)
    (h : ∀ a ∈ l, ∀ acc, f acc a = g acc a) :
    ∀ acc, l.foldl f acc = l.foldl g acc := by
  induction l with
  | nil =>
    intro acc
    rfl
  | cons x xs ih =>
    intro acc
    rw [List.foldl_cons, List.foldl_cons, h x (List.mem_cons_self x xs)]
    exact ih (fun a ha acc => h a (List.mem_cons_of_mem x ha) acc) _

/-- C10: after discarding contours with fewer than 3 points, polygon
extraction groups the (scaled) contours by nesting depth and folds over
the depths in increasing order, combining each depth's polygons with the
accumulated result through the boolean primitive with operation `"or"`
(union) for even depths and `"xor"` (symmetric difference) for odd
depths.  The right-hand side is the specification-side computation:
`depthsPresent` is the sorted list of distinct depths of the kept
contours and `groupAtDepth` selects the kept contours of one depth in
contour order. -/
theorem C10_depth_alternation
    (boolOp : List Gds.Poly → List Gds.Poly → String → List Gds.Poly)
    (contours : List Gds.Poly) (hier : List Gds.HierRow) :
    Gds.device_to_gdstk boolOp contours hier
      = (Gds.depthsPresent hier contours).foldl
          (fun processed level =>
            boolOp (Gds.groupAtDepth hier contours level) processed
              (if level % 2 = 0 then "or" else "xor")) [] := by
  have hlookup : ∀ d, ((Gds.buildLevels hier contours).lookup d).getD []
      = Gds.groupAtDepth hier contours d := by
    intro d
    have h := gds_foldl_lookup
      (fun i => Gds.contourLevel hier (hier.length + 1) (Int.ofNat i))
      contours.enum [] d
    exact h
  have hkeys_mem : ∀ d, (d ∈ (Gds.buildLevels hier contours).map Prod.fst)
      ↔ ∃ ic ∈ contours.enum, ic.2.length > 2 ∧
          Gds.contourLevel hier (hier.length + 1) (Int.ofNat ic.1) = d := by
    intro d
    have h := gds_foldl_keys_mem
      (fun i => Gds.contourLevel hier (hier.length + 1) (Int.ofNat i))
      contours.enum [] d
    simpa using h
  have hkeys_nodup : ((Gds.buildLevels hier contours).map Prod.fst).Nodup :=
    gds_foldl_keys_nodup
      (fun i => Gds.contourLevel hier (hier.length + 1) (Int.ofNat i))
      contours.enum [] (by simp)
  have hspec_mem : ∀ d,
      d ∈ (contours.enum.filterMap (fun ic =>
        if ic.2.length > 2 then
          some (Gds.contourLevel hier (hier.length + 1) (Int.ofNat ic.1))
        else none)).dedup
      ↔ ∃ ic ∈ contours.enum, ic.2.length > 2 ∧
          Gds.contourLevel hier (hier.length + 1) (Int.ofNat ic.1) = d := by
    intro d
    rw [List.mem_dedup, List.mem_filterMap]
    constructor
    · rintro ⟨ic, hic, hopt⟩
      by_cases hk : ic.2.length > 2
      · rw [if_pos hk] at hopt
        exact ⟨ic, hic, hk, Option.some.inj hopt⟩
      · rw [if_neg hk] at hopt
        exact absurd hopt (by simp)
    · rintro ⟨ic, hic, hk, hl⟩
      exact ⟨ic, hic, by rw [if_pos hk, hl]⟩
  have hperm : List.Perm ((Gds.buildLevels hier contours).map Prod.fst)
      ((contours.enum.filterMap (fun ic =>
          if ic.2.length > 2 then
            some (Gds.contourLevel hier (hier.length + 1) (Int.ofNat ic.1))
          else none)).dedup) :=
    (List.perm_ext_iff_of_nodup hkeys_nodup (List.nodup_dedup _)).mpr
      (fun d => by rw [hkeys_mem d, hspec_mem d])
  have hsorted_eq : ((Gds.buildLevels hier contours).map Prod.fst).mergeSort
      (fun a b => a ≤ b) = Gds.depthsPresent hier contours := by
    unfold Gds.depthsPresent
    have hs1 : List.Sorted (fun a b : Nat => a ≤ b)
        (((Gds.buildLevels hier contours).map Prod.fst).mergeSort
          (fun a b => a ≤ b)) := by
      have h := @List.sorted_mergeSort Nat (fun a b => decide (a ≤ b))
        (by intro a b c h1 h2; simp only [decide_eq_true_eq] at h1 h2 ⊢; omega)
        (by intro a b; simp only [Bool.or_eq_true, decide_eq_true_eq]; omega)
        ((Gds.buildLevels hier contours).map Prod.fst)
      exact h.imp (fun hab => by simpa using hab)
    have hs2 : List.Sorted (fun a b : Nat => a ≤ b)
        (((contours.enum.filterMap (fun ic =>
          if ic.2.length > 2 then
            some (Gds.contourLevel hier (hier.length + 1) (Int.ofNat ic.1))
          else none)).dedup).mergeSort (fun a b => a ≤ b)) := by
      have h := @List.sorted_mergeSort Nat (fun a b => decide (a ≤ b))
        (by intro a b c h1 h2; simp only [decide_eq_true_eq] at h1 h2 ⊢; omega)
        (by intro a b; simp only [Bool.or_eq_true, decide_eq_true_eq]; omega)
        ((contours.enum.filterMap (fun ic =>
          if ic.2.length > 2 then
            some (Gds.contourLevel hier (hier.length + 1) (Int.ofNat ic.1))
          else none)).dedup)
      exact h.imp (fun hab => by simpa using hab)
    exact List.eq_of_perm_of_sorted
      (((List.mergeSort_perm _ _).trans hperm).trans (List.mergeSort_perm _ _).symm)
      hs1 hs2
  rw [device_to_gdstk_eq, hsorted_eq]
  apply foldl_congr_mem
  intro d hd acc
  have hdmem : ∃ ic ∈ contours.enum, ic.2.length > 2 ∧
      Gds.contourLevel hier (hier.length + 1) (Int.ofNat ic.1) = d := by
    rw [← hspec_mem d]
    unfold Gds.depthsPresent at hd
    exact (List.mem_mergeSort).mp hd
  have hgrp_ne : Gds.groupAtDepth hier contours d ≠ [] := by
    obtain ⟨ic, hic, hk, hl⟩ := hdmem
    have hfil : ic ∈ contours.enum.filter (fun ic =>
        decide (ic.2.length > 2) &&
        decide (Gds.contourLevel hier (hier.length + 1) (Int.ofNat ic.1) = d)) :=
      List.mem_filter.mpr ⟨hic, by
        simp only [Bool.and_eq_true, decide_eq_true_eq]
        exact ⟨hk, hl⟩⟩
    unfold Gds.groupAtDepth
    intro hcon
    rw [List.map_eq_nil_iff] at hcon
    rw [hcon] at hfil
    simp at hfil
  rw [hlookup d, if_neg (by simp [List.isEmpty_iff, hgrp_ne])]
